import Mathlib

/-!
# PaintApp-Qt: the `Canvas` editing engine

A shallow embedding of `src/canvas/Canvas.cpp` / `Canvas.h`.

* `QImage` is a width, a height and a pixel map; colours are the pixel values the
  surface stores, so reading a pixel after writing it returns the colour written.
* `QPoint` coordinates are integers. The shift constraint computes in `int`; its
  arithmetic is modelled in 32 bits, an overflowing result wrapping around
  (`wrapInt`). The neighbours pushed by the fill are one step from an in-bounds
  pixel and cannot overflow.
* `QStack` is a list whose head is the top of the stack.
* `QPainter` rendering, `QImage::load` and `QImage::scaled` belong to Qt, not to
  this repository; they are parameters of the model (the structure `Qt`).
* `update()` and `setCursor()` only schedule a repaint / change the pointer shape
  and do not touch the editing state; they are left out.
-/

namespace PaintApp

/-! ## Data model -/

/-- A `QPoint`. -/
structure Point where
  x : Int
  y : Int
deriving DecidableEq, Repr

/-- A pixel colour as stored by the surface. -/
structure Color where
  red : Nat
  green : Nat
  blue : Nat
deriving DecidableEq, Repr

/-- The colour `Qt::white`. -/
def Color.white : Color := ⟨255, 255, 255⟩

/-- The colour `Qt::black`. -/
def Color.black : Color := ⟨0, 0, 0⟩

/-- A `QImage`: dimensions and pixel map. -/
structure Image where
  width : Nat
  height : Nat
  pixel : Point → Color

/-- The test `image.rect().contains(p)`. -/
def Image.contains (img : Image) (p : Point) : Prop :=
  0 ≤ p.x ∧ p.x < img.width ∧ 0 ≤ p.y ∧ p.y < img.height

instance (img : Image) (p : Point) : Decidable (img.contains p) := by
  unfold Image.contains
  infer_instance

/-- The read `image.pixelColor(p)`. -/
def Image.pixelColor (img : Image) (p : Point) : Color := img.pixel p

/-- The write `image.setPixelColor(p, c)`; Qt ignores a write outside the image. -/
def Image.setPixelColor (img : Image) (p : Point) (c : Color) : Image :=
  if img.contains p then
    { img with pixel := fun q => if q = p then c else img.pixel q }
  else img

/-- The whole-surface fill `image.fill(c)`. -/
def Image.fill (img : Image) (c : Color) : Image :=
  { img with pixel := fun _ => c }

/-- The constructor `QImage(w, h, Format_RGB32)` followed by `fill(c)`. -/
def Image.solid (w h : Nat) (c : Color) : Image := ⟨w, h, fun _ => c⟩

/-! ## Flood fill -/

/-- In-bounds pixels that still carry the colour `old` (the measure of the fill loop). -/
def Image.pending (img : Image) (old : Color) : Finset (Int × Int) :=
  ((Finset.Ico (0 : Int) img.width) ×ˢ (Finset.Ico (0 : Int) img.height)).filter
    (fun q => img.pixel ⟨q.1, q.2⟩ = old)

/-- What a run of the fill loop leaves behind: the surface, the pixels it wrote
(in the order they were written) and the number of iterations it executed. -/
structure FloodRun where
  image : Image
  writes : List Point
  steps : Nat

/-- The four pushes of one loop iteration; the head of the list is the top of the
stack, so the point pushed last comes first. -/
def pushNeighbours (p : Point) (stack : List Point) : List Point :=
  ⟨p.x, p.y - 1⟩ :: ⟨p.x, p.y + 1⟩ :: ⟨p.x - 1, p.y⟩ :: ⟨p.x + 1, p.y⟩ :: stack

/-- The `while (!stack.isEmpty())` loop of `Canvas::floodFill`. It is entered only
after the test `oldColor == newColor` has failed, which is the argument `hne`. -/
def floodLoop (old new : Color) (hne : old ≠ new) (img : Image) (stack : List Point) :
    FloodRun :=
  match stack with
  | [] => ⟨img, [], 0⟩
  | p :: rest =>
    if hc : ¬ img.contains p then
      let r := floodLoop old new hne img rest
      ⟨r.image, r.writes, r.steps + 1⟩
    else if hp : img.pixelColor p ≠ old then
      let r := floodLoop old new hne img rest
      ⟨r.image, r.writes, r.steps + 1⟩
    else
      let r := floodLoop old new hne (img.setPixelColor p new) (pushNeighbours p rest)
      ⟨r.image, p :: r.writes, r.steps + 1⟩
termination_by 4 * (img.pending old).card + stack.length
decreasing_by
  · simp
  · simp
  · have hc2 : img.contains p := not_not.mp hc
    have hp2 : img.pixel p = old := not_not.mp hp
    have hlt : ((img.setPixelColor p new).pending old).card < (img.pending old).card := by
      apply Finset.card_lt_card
      rw [Finset.ssubset_iff_of_subset]
      · refine ⟨(p.x, p.y), ?_, ?_⟩
        · simp only [Image.pending, Finset.mem_filter, Finset.mem_product, Finset.mem_Ico]
          exact ⟨⟨⟨hc2.1, hc2.2.1⟩, ⟨hc2.2.2.1, hc2.2.2.2⟩⟩, hp2⟩
        · simp only [Image.pending, Finset.mem_filter, not_and]
          intro _
          simp only [Image.setPixelColor, if_pos hc2, if_true]
          exact fun h => hne h.symm
      · intro q
        simp only [Image.pending, Finset.mem_filter, Finset.mem_product, Finset.mem_Ico,
          Image.setPixelColor, if_pos hc2]
        rintro ⟨hb, hq⟩
        refine ⟨hb, ?_⟩
        by_cases hqp : (⟨q.1, q.2⟩ : Point) = p
        · rw [if_pos hqp] at hq
          exact absurd hq.symm hne
        · rw [if_neg hqp] at hq
          exact hq
    simp only [pushNeighbours, List.length_cons]
    omega

/-- The body of `Canvas::floodFill` on the surface it edits. -/
def floodRun (img : Image) (pt : Point) (newColor : Color) : FloodRun :=
  if ¬ img.contains pt then ⟨img, [], 0⟩
  else
    if h : img.pixelColor pt = newColor then ⟨img, [], 0⟩
    else floodLoop (img.pixelColor pt) newColor h img [pt]

/-! ## The region a fill is meant to cover -/

/-- One step up, down, left or right. -/
def Adjacent (p q : Point) : Prop :=
  q = ⟨p.x + 1, p.y⟩ ∨ q = ⟨p.x - 1, p.y⟩ ∨ q = ⟨p.x, p.y + 1⟩ ∨ q = ⟨p.x, p.y - 1⟩

instance (p q : Point) : Decidable (Adjacent p q) := by
  unfold Adjacent
  infer_instance

/-- The 4-connected region of the glossary: the pixels reachable from the seed by
up/down/left/right steps through in-bounds pixels whose colour in `img` is the
colour of the seed. -/
inductive Region (img : Image) (seed : Point) : Point → Prop where
  | start : img.contains seed → Region img seed seed
  | step {p q : Point} : Region img seed p → Adjacent p q → img.contains q →
      img.pixelColor q = img.pixelColor seed → Region img seed q

/-- The loop invariant of the fill, relative to the surface `img0` at loop entry:
the size is kept; a pixel is either untouched or repainted and in the region;
every stacked point that is in bounds with the seed colour is in the region; the
repainted part of the region is closed under neighbours up to the stack; the seed
is repainted or stacked. -/
structure FillInv (img0 : Image) (pt : Point) (new : Color) (img : Image)
    (stack : List Point) : Prop where
  width_eq : img.width = img0.width
  height_eq : img.height = img0.height
  frame : ∀ p, img.pixel p = img0.pixel p ∨ (img.pixel p = new ∧ Region img0 pt p)
  cand : ∀ q ∈ stack, img0.contains q → img0.pixel q = img0.pixel pt → Region img0 pt q
  closed : ∀ q n, Region img0 pt q → img.pixel q = new → Adjacent q n → Region img0 pt n →
    img.pixel n = new ∨ n ∈ stack
  seeded : img.pixel pt = new ∨ pt ∈ stack

/-! ## The editing state -/

/-- The enumeration `Canvas::ShapeMode`. -/
inductive ShapeMode where
  | Freehand
  | Line
  | Rectangle
  | Ellipse
  | Fill
  | Text
deriving DecidableEq, Repr

/-- The value of `event->button()`. -/
inductive MouseButton where
  | LeftButton
  | RightButton
  | MiddleButton
deriving DecidableEq, Repr

/-- What `mouseMoveEvent` reads from its event: `buttons() & Qt::LeftButton`,
`modifiers() & Qt::ShiftModifier` and `pos()`. -/
structure MoveEvent where
  leftHeld : Bool
  shift : Bool
  pos : Point
deriving DecidableEq, Repr

/-- The Qt services the canvas calls. Each drawing function takes the surface
painted on, the pen colour and the pen width (for text: the font size), and
returns the surface after the call; the shape functions also take the brush
(`some c` for a solid brush of colour `c`, `none` for no brush). `load` is `QImage::load(path)`, `scaled` is
`scaled(size(), Qt::KeepAspectRatio, Qt::SmoothTransformation)`. -/
structure Qt where
  drawLine : Image → Color → Int → Point → Point → Image
  drawRect : Image → Color → Int → Option Color → Point → Point → Image
  drawEllipse : Image → Color → Int → Option Color → Point → Point → Image
  drawText : Image → Color → Int → Point → String → Image
  load : String → Option Image
  scaled : Image → Image

/-- The data members of `Canvas` that take part in editing. -/
structure Canvas where
  image : Image
  tempImage : Image
  startPoint : Point
  lastPoint : Point
  drawing : Bool
  eraserMode : Bool
  fillShape : Bool
  penColor : Color
  penWidth : Int
  shapeMode : ShapeMode
  undoStack : List Image
  redoStack : List Image
  textToDraw : String

/-- The state built by the constructor `Canvas::Canvas`. -/
def Canvas.init : Canvas where
  image := Image.solid 900 600 Color.white
  tempImage := Image.solid 0 0 Color.white
  startPoint := ⟨0, 0⟩
  lastPoint := ⟨0, 0⟩
  drawing := false
  eraserMode := false
  fillShape := false
  penColor := Color.black
  penWidth := 4
  shapeMode := ShapeMode.Freehand
  undoStack := []
  redoStack := []
  textToDraw := ""

/-- The method `Canvas::saveState`. -/
def Canvas.saveState (s : Canvas) : Canvas :=
  { s with undoStack := s.image :: s.undoStack, redoStack := [] }

/-- The method `Canvas::floodFill`. -/
def Canvas.floodFill (s : Canvas) (pt : Point) (newColor : Color) : Canvas :=
  { s with image := (floodRun s.image pt newColor).image }

/-- The method `Canvas::mousePressEvent`. -/
def Canvas.mousePressEvent (Q : Qt) (s : Canvas) (button : MouseButton) (pos : Point) :
    Canvas :=
  if button ≠ MouseButton.LeftButton then s
  else
    let s1 := s.saveState
    if s1.shapeMode = ShapeMode.Fill ∧ s1.eraserMode = false then
      s1.floodFill pos s1.penColor
    else if s1.shapeMode = ShapeMode.Text ∧ s1.eraserMode = false
        ∧ s1.textToDraw.isEmpty = false then
      { s1 with image := Q.drawText s1.image s1.penColor (s1.penWidth * 3) pos s1.textToDraw }
    else
      { s1 with drawing := true, startPoint := pos, lastPoint := pos, tempImage := s1.image }

/-- The value is representable in a 32-bit `int`. -/
def inInt (n : Int) : Prop := -2147483648 ≤ n ∧ n ≤ 2147483647

instance (n : Int) : Decidable (inInt n) := by
  unfold inInt
  infer_instance

/-- The `int` a computation leaves when its exact result is `n`: the value
congruent to `n` modulo 2^32 in the range of `int`. -/
def wrapInt (n : Int) : Int := (n + 2147483648) % 4294967296 - 2147483648

/-- The template `qAbs` at type `int`. -/
def qAbs (t : Int) : Int := if t ≥ 0 then t else wrapInt (-t)

/-- The template `qMax`. -/
def qMax (a b : Int) : Int := if a < b then b else a

/-- The shift-constraint block of `Canvas::mouseMoveEvent`: the endpoint it
computes from the anchor `startPoint` and the raw `endPoint`. -/
def shiftConstrain (startPoint endPoint : Point) : Point :=
  let dx := wrapInt (endPoint.x - startPoint.x)
  let dy := wrapInt (endPoint.y - startPoint.y)
  let size := qMax (qAbs dx) (qAbs dy)
  ⟨wrapInt (startPoint.x + (if dx < 0 then wrapInt (-size) else size)),
   wrapInt (startPoint.y + (if dy < 0 then wrapInt (-size) else size))⟩

/-- No step of the shift constraint overflows: the coordinates are `int` values,
and so are the offsets `dx`, `dy`, their negations, and the two coordinates
`anchor ± max(|dx|, |dy|)` of the constrained endpoint. -/
def shiftFits (a e : Point) : Prop :=
  inInt a.x ∧ inInt a.y ∧ inInt e.x ∧ inInt e.y ∧
  inInt (e.x - a.x) ∧ inInt (e.y - a.y) ∧ inInt (-(e.x - a.x)) ∧ inInt (-(e.y - a.y)) ∧
  inInt (a.x + (if e.x - a.x < 0 then -(max |e.x - a.x| |e.y - a.y|)
    else max |e.x - a.x| |e.y - a.y|)) ∧
  inInt (a.y + (if e.y - a.y < 0 then -(max |e.x - a.x| |e.y - a.y|)
    else max |e.x - a.x| |e.y - a.y|))

instance (a e : Point) : Decidable (shiftFits a e) := by
  unfold shiftFits
  infer_instance

/-- The colour that `Qt::NoBrush` becomes in `fillShape ? color : Qt::NoBrush`:
the conditional has type `QColor`, so the enumerator, whose value is 0, is
converted by the constructor `QColor(QRgb)` to `QColor(0)`, which is black. -/
def Color.ofNoBrush : Color := ⟨0, 0, 0⟩

/-- The shape-preview block of `Canvas::mouseMoveEvent`: the surface painted from
the baseline for the active shape mode. -/
def drawShape (Q : Qt) (mode : ShapeMode) (base : Image) (color : Color) (penWidth : Int)
    (brush : Option Color) (startPoint endPoint : Point) : Image :=
  match mode with
  | ShapeMode.Line => Q.drawLine base color penWidth startPoint endPoint
  | ShapeMode.Rectangle => Q.drawRect base color penWidth brush startPoint endPoint
  | ShapeMode.Ellipse => Q.drawEllipse base color penWidth brush startPoint endPoint
  | _ => base

/-- The method `Canvas::mouseMoveEvent`. The argument of `setBrush` is a `QColor`
in both branches of the conditional, so the brush is always solid. -/
def Canvas.mouseMoveEvent (Q : Qt) (s : Canvas) (ev : MoveEvent) : Canvas :=
  if s.drawing = false ∨ ev.leftHeld = false then s
  else
    let color := if s.eraserMode then Color.white else s.penColor
    let endPoint := ev.pos
    if s.shapeMode = ShapeMode.Freehand then
      { s with image := Q.drawLine s.image color s.penWidth s.lastPoint endPoint,
               lastPoint := endPoint }
    else if s.eraserMode then s
    else
      let endPoint := if ev.shift then shiftConstrain s.startPoint endPoint else endPoint
      { s with image := drawShape Q s.shapeMode s.tempImage color s.penWidth
                 (some (if s.fillShape then color else Color.ofNoBrush)) s.startPoint
                 endPoint }

/-- The method `Canvas::mouseReleaseEvent`. -/
def Canvas.mouseReleaseEvent (s : Canvas) : Canvas :=
  { s with drawing := false }

/-- The method `Canvas::undo`. -/
def Canvas.undo (s : Canvas) : Canvas :=
  match s.undoStack with
  | [] => s
  | top :: rest => { s with redoStack := s.image :: s.redoStack, image := top, undoStack := rest }

/-- The method `Canvas::redo`. -/
def Canvas.redo (s : Canvas) : Canvas :=
  match s.redoStack with
  | [] => s
  | top :: rest => { s with undoStack := s.image :: s.undoStack, image := top, redoStack := rest }

/-- The method `Canvas::clear`. -/
def Canvas.clear (s : Canvas) : Canvas :=
  let s1 := s.saveState
  { s1 with image := s1.image.fill Color.white }

/-- The method `Canvas::setColor`. -/
def Canvas.setColor (s : Canvas) (color : Color) : Canvas :=
  { s with penColor := color }

/-- The method `Canvas::setBrushSize`. -/
def Canvas.setBrushSize (s : Canvas) (size : Int) : Canvas :=
  { s with penWidth := size }

/-- The method `Canvas::setEraser`. -/
def Canvas.setEraser (s : Canvas) (enabled : Bool) : Canvas :=
  let s1 := { s with eraserMode := enabled }
  if s1.eraserMode then { s1 with shapeMode := ShapeMode.Freehand } else s1

/-- The method `Canvas::setShapeMode`. -/
def Canvas.setShapeMode (s : Canvas) (mode : ShapeMode) : Canvas :=
  if s.eraserMode then s else { s with shapeMode := mode }

/-- The method `Canvas::setFillShape`. -/
def Canvas.setFillShape (s : Canvas) (fill : Bool) : Canvas :=
  { s with fillShape := fill }

/-- The method `Canvas::setText`. -/
def Canvas.setText (s : Canvas) (text : String) : Canvas :=
  { s with textToDraw := text }

/-- The method `Canvas::loadImage`: the returned flag and the state afterwards. -/
def Canvas.loadImage (Q : Qt) (s : Canvas) (path : String) : Bool × Canvas :=
  match Q.load path with
  | none => (false, s)
  | some loaded => (true, { s.saveState with image := Q.scaled loaded })

/-- The method `Canvas::getImage`. -/
def Canvas.getImage (s : Canvas) : Image := s.image

/-- Repeated calls of `undo()`. -/
def Canvas.undoTimes (s : Canvas) : Nat → Canvas
  | 0 => s
  | n + 1 => (s.undo).undoTimes n

/-- A run of pointer-moves, delivered in order. -/
def Canvas.moves (Q : Qt) (s : Canvas) (evs : List MoveEvent) : Canvas :=
  evs.foldl (Canvas.mouseMoveEvent Q) s

/-- The public operations and pointer events a canvas can receive. -/
inductive Op where
  | clear
  | setColor (color : Color)
  | setBrushSize (size : Int)
  | setEraser (enabled : Bool)
  | setShapeMode (mode : ShapeMode)
  | setFillShape (fill : Bool)
  | undo
  | redo
  | setText (text : String)
  | floodFill (pt : Point) (newColor : Color)
  | loadImage (path : String)
  | getImage
  | press (button : MouseButton) (pos : Point)
  | move (ev : MoveEvent)
  | release

/-- The state after one operation. -/
def Canvas.step (Q : Qt) (s : Canvas) : Op → Canvas
  | Op.clear => s.clear
  | Op.setColor c => s.setColor c
  | Op.setBrushSize n => s.setBrushSize n
  | Op.setEraser b => s.setEraser b
  | Op.setShapeMode m => s.setShapeMode m
  | Op.setFillShape b => s.setFillShape b
  | Op.undo => s.undo
  | Op.redo => s.redo
  | Op.setText t => s.setText t
  | Op.floodFill pt c => s.floodFill pt c
  | Op.loadImage path => (s.loadImage Q path).2
  | Op.getImage => s
  | Op.press b pos => s.mousePressEvent Q b pos
  | Op.move ev => s.mouseMoveEvent Q ev
  | Op.release => s.mouseReleaseEvent

/-- The state after a sequence of operations. -/
def Canvas.run (Q : Qt) (s : Canvas) (ops : List Op) : Canvas :=
  ops.foldl (Canvas.step Q) s

/-- States the canvas can be in: those a sequence of operations produces from the
constructor's state. -/
def Reachable (Q : Qt) (s : Canvas) : Prop :=
  ∃ ops : List Op, Canvas.run Q Canvas.init ops = s

/-- The setters that select the tool and the brush; none of them records history. -/
inductive Setting where
  | setColor (color : Color)
  | setBrushSize (size : Int)
  | setEraser (enabled : Bool)
  | setShapeMode (mode : ShapeMode)
  | setFillShape (fill : Bool)
  | setText (text : String)

/-- The state after one setter call. -/
def Canvas.applySetting (s : Canvas) : Setting → Canvas
  | Setting.setColor c => s.setColor c
  | Setting.setBrushSize n => s.setBrushSize n
  | Setting.setEraser b => s.setEraser b
  | Setting.setShapeMode m => s.setShapeMode m
  | Setting.setFillShape b => s.setFillShape b
  | Setting.setText t => s.setText t

/-- A committing edit: `clear()`, `loadImage(path)`, or a whole primary-button
gesture (press, moves, release) made after choosing tool and brush with `setup`. -/
inductive Edit where
  | clear
  | load (path : String)
  | gesture (setup : List Setting) (pos : Point) (moves : List MoveEvent)

/-- The state after one edit. -/
def Canvas.applyEdit (Q : Qt) (s : Canvas) : Edit → Canvas
  | Edit.clear => s.clear
  | Edit.load path => (s.loadImage Q path).2
  | Edit.gesture setup pos moves =>
    (((setup.foldl Canvas.applySetting s).mousePressEvent Q MouseButton.LeftButton pos).moves Q
      moves).mouseReleaseEvent

/-- An edit takes place: a load does only when the file decodes. -/
def Edit.succeeds (Q : Qt) : Edit → Bool
  | Edit.load path => (Q.load path).isSome
  | _ => true

/-- A stand-in for the Qt services, to run the model on concrete inputs: lines and
shapes colour their two defining points, text colours its position, every
non-empty path decodes to a 2 x 2 black image, scaling is the identity. -/
def Qt.sample : Qt where
  drawLine := fun img c _ p q => (img.setPixelColor p c).setPixelColor q c
  drawRect := fun img c _ _ p q => (img.setPixelColor p c).setPixelColor q c
  drawEllipse := fun img c _ _ p q => (img.setPixelColor p c).setPixelColor q c
  drawText := fun img c _ p _ => img.setPixelColor p c
  load := fun path => if path.isEmpty then none else some (Image.solid 2 2 Color.black)
  scaled := fun img => img

/-! ## Sizes and the history timeline -/

/-- Two surfaces have the same width and the same height. -/
def Image.sameSize (a b : Image) : Prop :=
  a.width = b.width ∧ a.height = b.height

instance (a b : Image) : Decidable (a.sameSize b) := by
  unfold Image.sameSize
  infer_instance

/-- A `QPainter` draws on the image it was opened on and never resizes it: each
drawing service returns a surface of the size it was given. -/
def Qt.keepsSize (Q : Qt) : Prop :=
  (∀ img c w p q, (Q.drawLine img c w p q).sameSize img) ∧
  (∀ img c w b p q, (Q.drawRect img c w b p q).sameSize img) ∧
  (∀ img c w b p q, (Q.drawEllipse img c w b p q).sameSize img) ∧
  (∀ img c w p t, (Q.drawText img c w p t).sameSize img)

/-- Every snapshot on the two history stacks, and the drag baseline while a drag
is in progress, has the size of the current surface. -/
def Canvas.sizesAgree (s : Canvas) : Prop :=
  (∀ snap ∈ s.undoStack, snap.sameSize s.image) ∧
  (∀ snap ∈ s.redoStack, snap.sameSize s.image) ∧
  (s.drawing = true → s.tempImage.sameSize s.image)

/-- The operation is a call of `loadImage`. -/
def Op.isLoad : Op → Bool
  | Op.loadImage _ => true
  | _ => false

/-- The history timeline: the undo stack from bottom to top, then the current
surface, then the redo stack from top to bottom. -/
def Canvas.timeline (s : Canvas) : List Image :=
  s.undoStack.reverse ++ s.image :: s.redoStack

/-- The size computed by `QSize::scaled(target, Qt::KeepAspectRatio)` for a
`w` x `h` image and a `tw` x `th` target. -/
def keepAspectSize (w h tw th : Nat) : Nat × Nat :=
  let rw := th * w / h
  if rw ≤ tw then (rw, th) else (tw, tw * h / w)

/-- A second stand-in for the Qt services: as `Qt.sample`, but every non-empty path
decodes to a 300 x 300 black image, and scaling fits the image into the 900 x 600
widget keeping its aspect ratio (sampling the nearest source pixel). -/
def Qt.fitting : Qt where
  drawLine := Qt.sample.drawLine
  drawRect := Qt.sample.drawRect
  drawEllipse := Qt.sample.drawEllipse
  drawText := Qt.sample.drawText
  load := fun path => if path.isEmpty then none else some (Image.solid 300 300 Color.black)
  scaled := fun img =>
    ⟨(keepAspectSize img.width img.height 900 600).1,
     (keepAspectSize img.width img.height 900 600).2,
     fun p => img.pixel
       ⟨p.x * img.width / (keepAspectSize img.width img.height 900 600).1,
        p.y * img.height / (keepAspectSize img.width img.height 900 600).2⟩⟩

/-! ## Sample inputs -/

/-- A sample session: clear, open a file, flood-fill with red, drag a rectangle. -/
def sampleEdits : List Edit :=
  [Edit.clear, Edit.load "photo.png",
   Edit.gesture [Setting.setColor ⟨255, 0, 0⟩, Setting.setShapeMode ShapeMode.Fill] ⟨0, 0⟩ [],
   Edit.gesture [Setting.setShapeMode ShapeMode.Rectangle] ⟨1, 1⟩
     [⟨true, false, ⟨3, 2⟩⟩, ⟨true, true, ⟨5, 2⟩⟩]]

/-- A session that picks the rectangle tool, turns the eraser on and then asks
for the rectangle tool again. -/
def sampleEraserOps : List Op :=
  [Op.setShapeMode ShapeMode.Rectangle, Op.setEraser true, Op.setShapeMode ShapeMode.Rectangle]

/-- A one-row surface white, black, white, in a fresh canvas. -/
def sampleStripe : Canvas :=
  { Canvas.init with image := (Image.solid 3 1 Color.white).setPixelColor ⟨1, 0⟩ Color.black }

/-- The 10 x 10 white surface of the scenario, in a fresh canvas. -/
def sampleWhite : Canvas :=
  { Canvas.init with image := Image.solid 10 10 Color.white }

/-- The state after opening a 300 x 300 picture in a fresh canvas. -/
def sampleLoaded : Canvas :=
  Canvas.init.run Qt.fitting [Op.loadImage "photo.png"]

/-- A session without `loadImage`: clear, drag a line, undo, redo, fill. -/
def sampleDrawOps : List Op :=
  [Op.clear, Op.setShapeMode ShapeMode.Line, Op.press MouseButton.LeftButton ⟨1, 1⟩,
   Op.move ⟨true, false, ⟨6, 3⟩⟩, Op.release, Op.undo, Op.redo,
   Op.floodFill ⟨0, 0⟩ Color.black]

/-- An anchor and a raw endpoint, both with `int` coordinates, whose horizontal
distance exceeds the largest `int`. -/
def overflowAnchor : Point := ⟨-1, 0⟩

/-- The raw endpoint that goes with `overflowAnchor`. -/
def overflowEnd : Point := ⟨2147483647, 3⟩

/-! ## History -/

theorem saveState_undoStack (s : Canvas) :
    s.saveState.undoStack = s.image :: s.undoStack ∧ s.saveState.redoStack = [] :=
  ⟨rfl, rfl⟩

theorem mouseMoveEvent_history (Q : Qt) (s : Canvas) (ev : MoveEvent) :
    (s.mouseMoveEvent Q ev).undoStack = s.undoStack ∧
      (s.mouseMoveEvent Q ev).redoStack = s.redoStack := by
  unfold Canvas.mouseMoveEvent
  split_ifs <;> exact ⟨rfl, rfl⟩

theorem moves_history (Q : Qt) (evs : List MoveEvent) (s : Canvas) :
    (s.moves Q evs).undoStack = s.undoStack ∧ (s.moves Q evs).redoStack = s.redoStack := by
  induction evs generalizing s with
  | nil => exact ⟨rfl, rfl⟩
  | cons ev evs ih =>
    have h1 := ih (s.mouseMoveEvent Q ev)
    have h2 := mouseMoveEvent_history Q s ev
    exact ⟨h1.1.trans h2.1, h1.2.trans h2.2⟩

theorem press_history (Q : Qt) (s : Canvas) (pos : Point) :
    (s.mousePressEvent Q MouseButton.LeftButton pos).undoStack = s.image :: s.undoStack ∧
      (s.mousePressEvent Q MouseButton.LeftButton pos).redoStack = [] := by
  unfold Canvas.mousePressEvent
  simp only [ne_eq, not_true_eq_false, if_false]
  split_ifs <;> exact ⟨rfl, rfl⟩

theorem applySetting_history (s : Canvas) (c : Setting) :
    (s.applySetting c).undoStack = s.undoStack ∧ (s.applySetting c).image = s.image := by
  cases c <;> try exact ⟨rfl, rfl⟩
  · simp only [Canvas.applySetting, Canvas.setEraser]
    split_ifs <;> exact ⟨rfl, rfl⟩
  · simp only [Canvas.applySetting, Canvas.setShapeMode]
    split_ifs <;> exact ⟨rfl, rfl⟩

theorem setup_history (cs : List Setting) (s : Canvas) :
    (cs.foldl Canvas.applySetting s).undoStack = s.undoStack ∧
      (cs.foldl Canvas.applySetting s).image = s.image := by
  induction cs generalizing s with
  | nil => exact ⟨rfl, rfl⟩
  | cons c cs ih =>
    have h1 := ih (s.applySetting c)
    have h2 := applySetting_history s c
    exact ⟨h1.1.trans h2.1, h1.2.trans h2.2⟩

theorem applyEdit_undoStack (Q : Qt) (s : Canvas) (e : Edit) (h : e.succeeds Q = true) :
    (s.applyEdit Q e).undoStack = s.image :: s.undoStack := by
  cases e with
  | clear => rfl
  | load path =>
    simp only [Edit.succeeds] at h
    simp only [Canvas.applyEdit, Canvas.loadImage]
    cases hl : Q.load path with
    | none => simp [hl] at h
    | some loaded => rfl
  | gesture setup pos moves =>
    simp only [Canvas.applyEdit]
    show ((((setup.foldl Canvas.applySetting s).mousePressEvent Q MouseButton.LeftButton
      pos).moves Q moves)).undoStack = _
    rw [(moves_history Q moves _).1, (press_history Q _ pos).1, (setup_history setup s).1,
      (setup_history setup s).2]

theorem undo_cons (s : Canvas) (top : Image) (rest : List Image)
    (h : s.undoStack = top :: rest) :
    s.undo.image = top ∧ s.undo.undoStack = rest ∧ s.undo.redoStack = s.image :: s.redoStack := by
  unfold Canvas.undo
  rw [h]
  exact ⟨rfl, rfl, rfl⟩

theorem undoTimes_succ (n : Nat) (s : Canvas) :
    s.undoTimes (n + 1) = (s.undoTimes n).undo := by
  induction n generalizing s with
  | zero => rfl
  | succ n ih =>
    show (s.undo).undoTimes (n + 1) = ((s.undo).undoTimes n).undo
    exact ih s.undo

theorem undoTimes_edits (Q : Qt) (edits : List Edit) (s : Canvas)
    (h : ∀ e ∈ edits, e.succeeds Q = true) :
    ((edits.foldl (Canvas.applyEdit Q) s).undoTimes edits.length).image = s.image ∧
      ((edits.foldl (Canvas.applyEdit Q) s).undoTimes edits.length).undoStack
        = s.undoStack := by
  induction edits generalizing s with
  | nil => exact ⟨rfl, rfl⟩
  | cons e es ih =>
    have he : e.succeeds Q = true := h e (List.mem_cons_self _ _)
    have hes : ∀ e2 ∈ es, e2.succeeds Q = true := fun e2 h2 => h e2 (List.mem_cons_of_mem _ h2)
    have h1 := ih (s.applyEdit Q e) hes
    have h2 := applyEdit_undoStack Q s e he
    rw [List.foldl_cons, List.length_cons, undoTimes_succ]
    have h3 := undo_cons _ s.image s.undoStack (h1.2.trans h2)
    exact ⟨h3.1, h3.2.1⟩

/-- C2: after any sequence of committing edits (clear, a load that decodes, or a
whole primary-button gesture with any tool), with no undo or redo in between,
calling `undo()` once per edit makes the current surface equal to the surface
before the first edit. -/
theorem undo_n_restores_surface (Q : Qt) (s : Canvas) (edits : List Edit)
    (h : ∀ e ∈ edits, e.succeeds Q = true) :
    ((edits.foldl (Canvas.applyEdit Q) s).undoTimes edits.length).image = s.image :=
  (undoTimes_edits Q edits s h).1

theorem undo_n_restores_surface_witness :
    (∀ e ∈ sampleEdits, e.succeeds Qt.sample = true) ∧
      ((sampleEdits.foldl (Canvas.applyEdit Qt.sample) Canvas.init).undoTimes
        sampleEdits.length).image = Canvas.init.image :=
  ⟨by simp [sampleEdits, Edit.succeeds, Qt.sample]; decide,
   undo_n_restores_surface Qt.sample Canvas.init sampleEdits
     (by simp [sampleEdits, Edit.succeeds, Qt.sample]; decide)⟩

/-- C3: on a state whose undo stack is non-empty, `undo()` followed by `redo()`
gives back the state it started from, so the current surface, the undo stack and
the redo stack are what they were before the undo. -/
theorem undo_redo_restores (s : Canvas) (h : s.undoStack ≠ []) : s.undo.redo = s := by
  unfold Canvas.undo
  cases hu : s.undoStack with
  | nil => exact absurd hu h
  | cons top rest =>
    simp only [Canvas.redo]
    cases s
    simp only at hu
    subst hu
    rfl

theorem undo_redo_restores_witness :
    Canvas.init.clear.undoStack ≠ [] ∧ Canvas.init.clear.undo.redo = Canvas.init.clear :=
  ⟨by simp [Canvas.clear, Canvas.saveState],
   undo_redo_restores Canvas.init.clear (by simp [Canvas.clear, Canvas.saveState])⟩

/-- C4: `clear()`, a `loadImage` whose file decodes, and a primary-button
pointer-down with whatever tool is active each leave the undo stack equal to the
previous undo stack with the pre-operation surface pushed on top, and the redo
stack empty. -/
theorem commit_records_history (Q : Qt) (s : Canvas) (path : String) (loaded : Image)
    (pos : Point) (hload : Q.load path = some loaded) :
    (s.clear.undoStack = s.image :: s.undoStack ∧ s.clear.redoStack = []) ∧
    ((s.loadImage Q path).1 = true ∧
      (s.loadImage Q path).2.undoStack = s.image :: s.undoStack ∧
      (s.loadImage Q path).2.redoStack = []) ∧
    ((s.mousePressEvent Q MouseButton.LeftButton pos).undoStack = s.image :: s.undoStack ∧
      (s.mousePressEvent Q MouseButton.LeftButton pos).redoStack = []) := by
  refine ⟨⟨rfl, rfl⟩, ?_, press_history Q s pos⟩
  unfold Canvas.loadImage
  rw [hload]
  exact ⟨rfl, rfl, rfl⟩

theorem commit_records_history_witness :
    Qt.sample.load "photo.png" = some (Image.solid 2 2 Color.black) ∧
    (Canvas.init.loadImage Qt.sample "photo.png").2.undoStack = [Canvas.init.image] ∧
    ((Canvas.init.setShapeMode ShapeMode.Text).mousePressEvent Qt.sample
      MouseButton.LeftButton ⟨3, 4⟩).undoStack = [Canvas.init.image] :=
  have h := commit_records_history Qt.sample Canvas.init "photo.png"
    (Image.solid 2 2 Color.black) ⟨3, 4⟩ rfl
  have h2 := commit_records_history Qt.sample (Canvas.init.setShapeMode ShapeMode.Text)
    "photo.png" (Image.solid 2 2 Color.black) ⟨3, 4⟩ rfl
  ⟨rfl, h.2.1.2.1, h2.2.2.1⟩

/-! ## Tools that commit on pointer-down -/

/-- C5 (as stated, refuted): with the Text tool and an empty pending string the
press reaches the drag-start code, so the drag flag is set after the press. -/
theorem press_text_empty_starts_drag :
    (Canvas.init.setShapeMode ShapeMode.Text).shapeMode = ShapeMode.Text ∧
    (Canvas.init.setShapeMode ShapeMode.Text).textToDraw = "" ∧
    ¬ ((Canvas.init.setShapeMode ShapeMode.Text).mousePressEvent Qt.sample
        MouseButton.LeftButton ⟨1, 1⟩).drawing = false := by
  decide

/-- C5 (amended): from a state with no drag in progress and the eraser off whose
tool is Fill or Text, a pointer-move that follows a pointer-down changes nothing;
and the drag flag after the press is false when the tool is Fill or the pending
text string is non-empty. -/
theorem press_fill_text_then_move (Q : Qt) (s : Canvas) (button : MouseButton) (pos : Point)
    (ev : MoveEvent) (htool : s.shapeMode = ShapeMode.Fill ∨ s.shapeMode = ShapeMode.Text)
    (he : s.eraserMode = false) (hd : s.drawing = false) :
    (s.mousePressEvent Q button pos).mouseMoveEvent Q ev = s.mousePressEvent Q button pos ∧
    (s.shapeMode = ShapeMode.Fill ∨ s.textToDraw.isEmpty = false →
      (s.mousePressEvent Q button pos).drawing = false) := by
  obtain ⟨image, tempImage, startPoint, lastPoint, drawing, eraserMode, fillShape, penColor,
    penWidth, shapeMode, undoStack, redoStack, textToDraw⟩ := s
  simp only at htool he hd
  subst he hd
  by_cases hb : button = MouseButton.LeftButton
  · subst hb
    rcases htool with h | h
    · subst h
      simp [Canvas.mousePressEvent, Canvas.saveState, Canvas.floodFill, Canvas.mouseMoveEvent]
    · subst h
      by_cases ht : textToDraw.isEmpty = true
      · simp [Canvas.mousePressEvent, Canvas.saveState, Canvas.mouseMoveEvent, ht, drawShape]
      · simp [Canvas.mousePressEvent, Canvas.saveState, Canvas.mouseMoveEvent, ht]
  · simp [Canvas.mousePressEvent, hb, Canvas.mouseMoveEvent]

theorem press_fill_text_then_move_witness :
    ((Canvas.init.setShapeMode ShapeMode.Fill).mousePressEvent Qt.sample
        MouseButton.LeftButton ⟨2, 2⟩).mouseMoveEvent Qt.sample ⟨true, false, ⟨7, 7⟩⟩
      = (Canvas.init.setShapeMode ShapeMode.Fill).mousePressEvent Qt.sample
        MouseButton.LeftButton ⟨2, 2⟩ ∧
    ((Canvas.init.setShapeMode ShapeMode.Fill).mousePressEvent Qt.sample
        MouseButton.LeftButton ⟨2, 2⟩).drawing = false :=
  have h := press_fill_text_then_move Qt.sample (Canvas.init.setShapeMode ShapeMode.Fill)
    MouseButton.LeftButton ⟨2, 2⟩ ⟨true, false, ⟨7, 7⟩⟩ (Or.inl rfl) rfl rfl
  ⟨h.1, h.2 (Or.inl rfl)⟩

/-! ## Eraser and tool mode -/

theorem press_tool (Q : Qt) (s : Canvas) (button : MouseButton) (pos : Point) :
    (s.mousePressEvent Q button pos).eraserMode = s.eraserMode ∧
      (s.mousePressEvent Q button pos).shapeMode = s.shapeMode := by
  simp only [Canvas.mousePressEvent]
  split_ifs <;> exact ⟨rfl, rfl⟩

theorem move_tool (Q : Qt) (s : Canvas) (ev : MoveEvent) :
    (s.mouseMoveEvent Q ev).eraserMode = s.eraserMode ∧
      (s.mouseMoveEvent Q ev).shapeMode = s.shapeMode := by
  unfold Canvas.mouseMoveEvent
  split_ifs <;> exact ⟨rfl, rfl⟩

theorem step_eraser_freehand (Q : Qt) (s : Canvas) (op : Op)
    (h : s.eraserMode = true → s.shapeMode = ShapeMode.Freehand) :
    (s.step Q op).eraserMode = true → (s.step Q op).shapeMode = ShapeMode.Freehand := by
  cases op with
  | clear => exact h
  | setColor c => exact h
  | setBrushSize n => exact h
  | setEraser b =>
    simp only [Canvas.step, Canvas.setEraser]
    split_ifs with hb
    · intro _; rfl
    · intro h2; exact absurd h2 hb
  | setShapeMode m =>
    simp only [Canvas.step, Canvas.setShapeMode]
    split_ifs with hb
    · exact h
    · intro h2; exact absurd h2 hb
  | setFillShape b => exact h
  | undo =>
    simp only [Canvas.step, Canvas.undo]
    split <;> exact h
  | redo =>
    simp only [Canvas.step, Canvas.redo]
    split <;> exact h
  | setText t => exact h
  | floodFill pt c => exact h
  | loadImage path =>
    simp only [Canvas.step, Canvas.loadImage]
    split <;> exact h
  | getImage => exact h
  | press b pos =>
    simp only [Canvas.step]
    rw [(press_tool Q s b pos).1, (press_tool Q s b pos).2]
    exact h
  | move ev =>
    simp only [Canvas.step]
    rw [(move_tool Q s ev).1, (move_tool Q s ev).2]
    exact h
  | release => exact h

theorem run_eraser_freehand (Q : Qt) (ops : List Op) (s : Canvas)
    (h : s.eraserMode = true → s.shapeMode = ShapeMode.Freehand) :
    (s.run Q ops).eraserMode = true → (s.run Q ops).shapeMode = ShapeMode.Freehand := by
  induction ops generalizing s with
  | nil => exact h
  | cons op ops ih => exact ih (s.step Q op) (step_eraser_freehand Q s op h)

/-- C6: in every state reachable from the constructor's state by public operations
and pointer events, an enabled eraser means the tool mode is Freehand. After
`setEraser(true)`, `setShapeMode(m)` leaves the mode Freehand; while the eraser is
on `setShapeMode(m)` changes nothing; after `setEraser(false)` it sets the mode
to `m`. -/
theorem eraser_forces_freehand (Q : Qt) :
    (∀ s, Reachable Q s → s.eraserMode = true → s.shapeMode = ShapeMode.Freehand) ∧
    (∀ (s : Canvas) (m : ShapeMode),
      ((s.setEraser true).setShapeMode m).shapeMode = ShapeMode.Freehand) ∧
    (∀ (s : Canvas) (m : ShapeMode), s.eraserMode = true → s.setShapeMode m = s) ∧
    (∀ (s : Canvas) (m : ShapeMode), ((s.setEraser false).setShapeMode m).shapeMode = m) := by
  refine ⟨?_, ?_, ?_, ?_⟩
  · rintro s ⟨ops, rfl⟩
    exact run_eraser_freehand Q ops Canvas.init (fun h => rfl)
  · intro s m
    simp [Canvas.setEraser, Canvas.setShapeMode]
  · intro s m h
    simp [Canvas.setShapeMode, h]
  · intro s m
    simp [Canvas.setEraser, Canvas.setShapeMode]

theorem eraser_forces_freehand_witness :
    Reachable Qt.sample (Canvas.init.run Qt.sample sampleEraserOps) ∧
    (Canvas.init.run Qt.sample sampleEraserOps).eraserMode = true ∧
    (Canvas.init.run Qt.sample sampleEraserOps).shapeMode = ShapeMode.Freehand :=
  ⟨⟨sampleEraserOps, rfl⟩, rfl,
   (eraser_forces_freehand Qt.sample).1 _ ⟨sampleEraserOps, rfl⟩ rfl⟩

/-! ## Shape preview -/

theorem move_shape_absorb (Q : Qt) (s : Canvas) (e1 e2 : MoveEvent)
    (htool : s.shapeMode ≠ ShapeMode.Freehand) (he : s.eraserMode = false) :
    ((s.mouseMoveEvent Q e1).mouseMoveEvent Q e2 = s.mouseMoveEvent Q e2 ∨
      (s.mouseMoveEvent Q e1).mouseMoveEvent Q e2 = s.mouseMoveEvent Q e1) ∧
    ((s.drawing = true ∧ e2.leftHeld = true) →
      (s.mouseMoveEvent Q e1).mouseMoveEvent Q e2 = s.mouseMoveEvent Q e2) := by
  obtain ⟨image, tempImage, startPoint, lastPoint, drawing, eraserMode, fillShape, penColor,
    penWidth, shapeMode, undoStack, redoStack, textToDraw⟩ := s
  simp only at htool he
  subst he
  cases drawing <;> cases h1 : e1.leftHeld <;> cases h2 : e2.leftHeld <;>
    simp [Canvas.mouseMoveEvent, htool, h1, h2]

theorem move_keeps_drag (Q : Qt) (s : Canvas) (ev : MoveEvent) :
    (s.mouseMoveEvent Q ev).drawing = s.drawing := by
  unfold Canvas.mouseMoveEvent
  split_ifs <;> rfl

theorem moves_shape_last (Q : Qt) (evs : List MoveEvent) (s : Canvas) (last : MoveEvent)
    (hd : s.drawing = true) (htool : s.shapeMode ≠ ShapeMode.Freehand)
    (he : s.eraserMode = false) (hl : last.leftHeld = true) :
    s.moves Q (evs ++ [last]) = s.mouseMoveEvent Q last := by
  induction evs generalizing s with
  | nil => rfl
  | cons ev evs ih =>
    show (s.mouseMoveEvent Q ev).moves Q (evs ++ [last]) = _
    rw [ih (s.mouseMoveEvent Q ev) ((move_keeps_drag Q s ev).trans hd)
      (by rw [(move_tool Q s ev).2]; exact htool) (by rw [(move_tool Q s ev).1]; exact he)]
    exact (move_shape_absorb Q s ev last htool he).2 ⟨hd, hl⟩

/-- C7: after a primary-button press with a shape tool (Line, Rectangle or
Ellipse) and the eraser off, the state after any run of pointer-moves ending in a
move `last` with the primary button held is the state the single move `last`
produces right after the press; its surface is one shape rendered by the
rasteriser on the pre-drag surface from the anchor to the (possibly
shift-constrained) endpoint of `last`, with the pen colour and width and a solid
brush of the pen colour (fill flag on) or of black (fill flag off). -/
theorem shape_preview_from_baseline (Q : Qt) (s0 : Canvas) (anchor : Point)
    (evs : List MoveEvent) (last : MoveEvent)
    (htool : s0.shapeMode = ShapeMode.Line ∨ s0.shapeMode = ShapeMode.Rectangle ∨
      s0.shapeMode = ShapeMode.Ellipse)
    (he : s0.eraserMode = false) (hl : last.leftHeld = true) :
    (s0.mousePressEvent Q MouseButton.LeftButton anchor).moves Q (evs ++ [last])
      = (s0.mousePressEvent Q MouseButton.LeftButton anchor).mouseMoveEvent Q last ∧
    ((s0.mousePressEvent Q MouseButton.LeftButton anchor).moves Q (evs ++ [last])).image
      = drawShape Q s0.shapeMode s0.image s0.penColor s0.penWidth
          (some (if s0.fillShape then s0.penColor else Color.ofNoBrush)) anchor
          (if last.shift then shiftConstrain anchor last.pos else last.pos) := by
  have hpress : s0.mousePressEvent Q MouseButton.LeftButton anchor
      = { s0.saveState with drawing := true, startPoint := anchor, lastPoint := anchor,
                            tempImage := s0.image } := by
    rcases htool with h | h | h <;>
      simp [Canvas.mousePressEvent, Canvas.saveState, h, he]
  have hmode : s0.shapeMode ≠ ShapeMode.Freehand := by
    rcases htool with h | h | h <;> rw [h] <;> decide
  have hlast := moves_shape_last Q evs (s0.mousePressEvent Q MouseButton.LeftButton anchor)
    last (by rw [hpress]) (by rw [hpress]; exact hmode) (by rw [hpress]; exact he) hl
  refine ⟨hlast, ?_⟩
  rw [hlast, hpress]
  simp [Canvas.mouseMoveEvent, Canvas.saveState, hl, hmode, he]

theorem shape_preview_from_baseline_witness :
    ((Canvas.init.setShapeMode ShapeMode.Rectangle).mousePressEvent Qt.sample
        MouseButton.LeftButton ⟨1, 1⟩).moves Qt.sample
        ([⟨true, false, ⟨9, 4⟩⟩, ⟨true, false, ⟨2, 8⟩⟩] ++ [⟨true, true, ⟨5, 3⟩⟩])
      = ((Canvas.init.setShapeMode ShapeMode.Rectangle).mousePressEvent Qt.sample
        MouseButton.LeftButton ⟨1, 1⟩).mouseMoveEvent Qt.sample ⟨true, true, ⟨5, 3⟩⟩ :=
  (shape_preview_from_baseline Qt.sample (Canvas.init.setShapeMode ShapeMode.Rectangle) ⟨1, 1⟩
    [⟨true, false, ⟨9, 4⟩⟩, ⟨true, false, ⟨2, 8⟩⟩] ⟨true, true, ⟨5, 3⟩⟩
    (Or.inr (Or.inl rfl)) rfl rfl).1

/-! ## Shift constraint -/

theorem wrapInt_of_inInt (n : Int) (h : inInt n) : wrapInt n = n := by
  unfold wrapInt
  unfold inInt at h
  omega

theorem qAbs_eq_abs (t : Int) (h : inInt (-t)) : qAbs t = |t| := by
  unfold qAbs
  split_ifs with h1
  · exact (abs_of_nonneg h1).symm
  · rw [wrapInt_of_inInt _ h]
    exact (abs_of_neg (by omega)).symm

theorem qMax_eq_max (a b : Int) : qMax a b = max a b := by
  unfold qMax
  split_ifs with h <;> omega

/-- When no step overflows, the constrained endpoint is the anchor moved by
`max(|dx|, |dy|)` on each axis, towards the negative side where the raw offset is
negative. -/
theorem shiftConstrain_exact (a e : Point) (h : shiftFits a e) :
    shiftConstrain a e =
      ⟨a.x + (if e.x - a.x < 0 then -(max |e.x - a.x| |e.y - a.y|)
          else max |e.x - a.x| |e.y - a.y|),
       a.y + (if e.y - a.y < 0 then -(max |e.x - a.x| |e.y - a.y|)
          else max |e.x - a.x| |e.y - a.y|)⟩ := by
  obtain ⟨_, _, _, _, hdx, hdy, hndx, hndy, hx, hy⟩ := h
  have h1 : wrapInt (e.x - a.x) = e.x - a.x := wrapInt_of_inInt _ hdx
  have h2 : wrapInt (e.y - a.y) = e.y - a.y := wrapInt_of_inInt _ hdy
  have h3 : qAbs (e.x - a.x) = |e.x - a.x| := qAbs_eq_abs _ hndx
  have h4 : qAbs (e.y - a.y) = |e.y - a.y| := qAbs_eq_abs _ hndy
  have hm : inInt (-(max |e.x - a.x| |e.y - a.y|)) := by
    unfold inInt at hdx hdy hndx hndy ⊢
    rcases abs_cases (e.x - a.x) with ⟨k1, _⟩ | ⟨k1, _⟩ <;>
    rcases abs_cases (e.y - a.y) with ⟨k2, _⟩ | ⟨k2, _⟩ <;>
    rcases max_cases |e.x - a.x| |e.y - a.y| with ⟨k3, _⟩ | ⟨k3, _⟩ <;>
    (rw [k3]
     omega)
  have h5 := wrapInt_of_inInt _ hm
  have h6 := wrapInt_of_inInt _ hx
  have h7 := wrapInt_of_inInt _ hy
  simp only [shiftConstrain, h1, h2, h3, h4, qMax_eq_max, h5, h6, h7]

/-- The square property of the point the constraint computes without overflow. -/
theorem square_of_exact (ax ay ex ey : Int) :
    |ax + (if ex - ax < 0 then -(max |ex - ax| |ey - ay|) else max |ex - ax| |ey - ay|) - ax|
      = max |ex - ax| |ey - ay| ∧
    |ay + (if ey - ay < 0 then -(max |ex - ax| |ey - ay|) else max |ex - ax| |ey - ay|) - ay|
      = max |ex - ax| |ey - ay| ∧
    (ex - ax < 0 → ax + (if ex - ax < 0 then -(max |ex - ax| |ey - ay|)
      else max |ex - ax| |ey - ay|) - ax < 0) ∧
    (0 < ex - ax → 0 < ax + (if ex - ax < 0 then -(max |ex - ax| |ey - ay|)
      else max |ex - ax| |ey - ay|) - ax) ∧
    (ex - ax = 0 → 0 ≤ ax + (if ex - ax < 0 then -(max |ex - ax| |ey - ay|)
      else max |ex - ax| |ey - ay|) - ax) ∧
    (ey - ay < 0 → ay + (if ey - ay < 0 then -(max |ex - ax| |ey - ay|)
      else max |ex - ax| |ey - ay|) - ay < 0) ∧
    (0 < ey - ay → 0 < ay + (if ey - ay < 0 then -(max |ex - ax| |ey - ay|)
      else max |ex - ax| |ey - ay|) - ay) ∧
    (ey - ay = 0 → 0 ≤ ay + (if ey - ay < 0 then -(max |ex - ax| |ey - ay|)
      else max |ex - ax| |ey - ay|) - ay) ∧
    (|ex - ax| = |ey - ay| →
      ax + (if ex - ax < 0 then -(max |ex - ax| |ey - ay|)
        else max |ex - ax| |ey - ay|) = ex ∧
      ay + (if ey - ay < 0 then -(max |ex - ax| |ey - ay|)
        else max |ex - ax| |ey - ay|) = ey) := by
  rcases abs_cases (ex - ax) with ⟨h1, h1b⟩ | ⟨h1, h1b⟩ <;>
  rcases abs_cases (ey - ay) with ⟨h2, h2b⟩ | ⟨h2, h2b⟩ <;>
  rcases max_cases |ex - ax| |ey - ay| with ⟨h3, h3b⟩ | ⟨h3, h3b⟩ <;>
  (rw [h3, h1, h2] at *
   refine ⟨?_, ?_, ?_, ?_, ?_, ?_, ?_, ?_, ?_⟩ <;> split_ifs <;>
     first
     | omega
     | (rw [abs_eq (by omega)]; omega))

/-- Coordinates of magnitude at most 2^29 never overflow the shift constraint. -/
theorem shiftFits_of_small (a e : Point)
    (ha : |a.x| ≤ 536870912 ∧ |a.y| ≤ 536870912)
    (he : |e.x| ≤ 536870912 ∧ |e.y| ≤ 536870912) : shiftFits a e := by
  obtain ⟨ax, ay⟩ := a
  obtain ⟨ex, ey⟩ := e
  simp only [abs_le] at ha he
  unfold shiftFits inInt
  simp only
  rcases abs_cases (ex - ax) with ⟨h1, _⟩ | ⟨h1, _⟩ <;>
  rcases abs_cases (ey - ay) with ⟨h2, _⟩ | ⟨h2, _⟩ <;>
  rcases max_cases |ex - ax| |ey - ay| with ⟨h3, _⟩ | ⟨h3, _⟩ <;>
  (simp only [h3, h1, h2]
   refine ⟨?_, ?_, ?_, ?_, ?_, ?_, ?_, ?_, ?_, ?_⟩ <;> (try split_ifs) <;> omega)

/-- C8 (as stated, refuted): for the anchor (-1, 0) and the raw endpoint
(2147483647, 3), both pairs of `int` coordinates, the offset `dx` overflows; the
constrained endpoint is (-4, 3), at distance 3 from the anchor on the x axis and
on its negative side, while the raw offset is positive and of magnitude 2^31. -/
theorem shiftConstrain_overflow :
    inInt overflowAnchor.x ∧ inInt overflowAnchor.y ∧
    inInt overflowEnd.x ∧ inInt overflowEnd.y ∧
    shiftConstrain overflowAnchor overflowEnd = ⟨-4, 3⟩ ∧
    ¬ (|(shiftConstrain overflowAnchor overflowEnd).x - overflowAnchor.x|
        = max |overflowEnd.x - overflowAnchor.x| |overflowEnd.y - overflowAnchor.y|) ∧
    0 < overflowEnd.x - overflowAnchor.x ∧
    ¬ (0 < (shiftConstrain overflowAnchor overflowEnd).x - overflowAnchor.x) := by
  decide

/-- C8 (amended): for every anchor and raw endpoint on which no step of the
computation overflows `int`, the shift-constrained endpoint lies at distance
`max(|dx|, |dy|)` from the anchor on both axes, where `dx`, `dy` are the raw
offsets; on each axis a negative raw offset gives a negative constrained offset
and a positive one a positive constrained offset (a zero raw offset counts as
non-negative); and a raw endpoint with `|dx| = |dy|` is returned unchanged. -/
theorem shiftConstrain_square (a e : Point) (hfit : shiftFits a e) :
    |(shiftConstrain a e).x - a.x| = max |e.x - a.x| |e.y - a.y| ∧
    |(shiftConstrain a e).y - a.y| = max |e.x - a.x| |e.y - a.y| ∧
    (e.x - a.x < 0 → (shiftConstrain a e).x - a.x < 0) ∧
    (0 < e.x - a.x → 0 < (shiftConstrain a e).x - a.x) ∧
    (e.x - a.x = 0 → 0 ≤ (shiftConstrain a e).x - a.x) ∧
    (e.y - a.y < 0 → (shiftConstrain a e).y - a.y < 0) ∧
    (0 < e.y - a.y → 0 < (shiftConstrain a e).y - a.y) ∧
    (e.y - a.y = 0 → 0 ≤ (shiftConstrain a e).y - a.y) ∧
    (|e.x - a.x| = |e.y - a.y| → shiftConstrain a e = e) := by
  have hsq := square_of_exact a.x a.y e.x e.y
  rw [shiftConstrain_exact a e hfit]
  refine ⟨hsq.1, hsq.2.1, hsq.2.2.1, hsq.2.2.2.1, hsq.2.2.2.2.1, hsq.2.2.2.2.2.1,
    hsq.2.2.2.2.2.2.1, hsq.2.2.2.2.2.2.2.1, ?_⟩
  intro heq
  have h9 := hsq.2.2.2.2.2.2.2.2 heq
  cases e
  simp only [Point.mk.injEq]
  exact h9

theorem shiftConstrain_square_witness :
    shiftFits ⟨0, 0⟩ ⟨5, 5⟩ ∧ shiftConstrain ⟨0, 0⟩ ⟨5, 5⟩ = ⟨5, 5⟩ ∧
    shiftFits ⟨10, 20⟩ ⟨7, 27⟩ ∧
    |(shiftConstrain ⟨10, 20⟩ ⟨7, 27⟩).x - 10| = 7 ∧
    (shiftConstrain ⟨10, 20⟩ ⟨7, 27⟩).x - 10 < 0 :=
  ⟨by decide,
   (shiftConstrain_square ⟨0, 0⟩ ⟨5, 5⟩ (by decide)).2.2.2.2.2.2.2.2 (by decide),
   by decide,
   (shiftConstrain_square ⟨10, 20⟩ ⟨7, 27⟩ (by decide)).1,
   (shiftConstrain_square ⟨10, 20⟩ ⟨7, 27⟩ (by decide)).2.2.1 (by decide)⟩

/-! ## Flood fill: the region filled -/

theorem Region.inside {img : Image} {seed p : Point} (h : Region img seed p) :
    img.contains p ∧ img.pixel p = img.pixel seed := by
  cases h with
  | start hin => exact ⟨hin, rfl⟩
  | step _ _ hin hcol => exact ⟨hin, hcol⟩

theorem mem_pushNeighbours (p q : Point) (stack : List Point) :
    q ∈ pushNeighbours p stack ↔ Adjacent p q ∨ q ∈ stack := by
  simp only [pushNeighbours, List.mem_cons, Adjacent]
  tauto

theorem setPixelColor_width (img : Image) (p : Point) (c : Color) :
    (img.setPixelColor p c).width = img.width ∧ (img.setPixelColor p c).height = img.height := by
  unfold Image.setPixelColor
  split_ifs <;> exact ⟨rfl, rfl⟩

theorem setPixelColor_self (img : Image) (p : Point) (c : Color) (h : img.contains p) :
    (img.setPixelColor p c).pixel p = c := by
  simp [Image.setPixelColor, h]

theorem setPixelColor_other (img : Image) (p q : Point) (c : Color) (h : q ≠ p) :
    (img.setPixelColor p c).pixel q = img.pixel q := by
  unfold Image.setPixelColor
  split_ifs
  · simp [h]
  · rfl

theorem contains_of_size {a b : Image} (hw : a.width = b.width) (hh : a.height = b.height)
    (p : Point) : a.contains p ↔ b.contains p := by
  unfold Image.contains
  rw [hw, hh]

theorem floodLoop_nil (old new : Color) (hne : old ≠ new) (img : Image) :
    floodLoop old new hne img [] = ⟨img, [], 0⟩ := by
  rw [floodLoop]

theorem floodLoop_outside (old new : Color) (hne : old ≠ new) (img : Image) (p : Point)
    (rest : List Point) (hc : ¬ img.contains p) :
    floodLoop old new hne img (p :: rest)
      = ⟨(floodLoop old new hne img rest).image, (floodLoop old new hne img rest).writes,
         (floodLoop old new hne img rest).steps + 1⟩ := by
  rw [floodLoop, dif_pos hc]

theorem floodLoop_other_colour (old new : Color) (hne : old ≠ new) (img : Image) (p : Point)
    (rest : List Point) (hc : img.contains p) (hp : img.pixelColor p ≠ old) :
    floodLoop old new hne img (p :: rest)
      = ⟨(floodLoop old new hne img rest).image, (floodLoop old new hne img rest).writes,
         (floodLoop old new hne img rest).steps + 1⟩ := by
  rw [floodLoop, dif_neg (not_not.mpr hc), dif_pos hp]

theorem floodLoop_write (old new : Color) (hne : old ≠ new) (img : Image) (p : Point)
    (rest : List Point) (hc : img.contains p) (hp : img.pixelColor p = old) :
    floodLoop old new hne img (p :: rest)
      = ⟨(floodLoop old new hne (img.setPixelColor p new) (pushNeighbours p rest)).image,
         p :: (floodLoop old new hne (img.setPixelColor p new) (pushNeighbours p rest)).writes,
         (floodLoop old new hne (img.setPixelColor p new) (pushNeighbours p rest)).steps + 1⟩ := by
  rw [floodLoop, dif_neg (not_not.mpr hc), dif_neg (not_not.mpr hp)]

theorem FillInv.drop {img0 img : Image} {pt p : Point} {new : Color} {rest : List Point}
    (hin : img0.contains pt)
    (h : FillInv img0 pt new img (p :: rest))
    (hskip : ¬ img.contains p ∨ img.pixel p ≠ img0.pixel pt) :
    FillInv img0 pt new img rest := by
  have key : ∀ n, Region img0 pt n → n = p → img.pixel n = new := by
    intro n hn hnp
    subst hnp
    rcases hskip with hout | hcol
    · exact absurd ((contains_of_size h.width_eq h.height_eq n).mpr hn.inside.1) hout
    · rcases h.frame n with hf | hf
      · exact absurd (hf.trans hn.inside.2) hcol
      · exact hf.1
  refine ⟨h.width_eq, h.height_eq, h.frame, ?_, ?_, ?_⟩
  · intro q hq
    exact h.cand q (List.mem_cons_of_mem _ hq)
  · intro q n hq hqn hadj hn
    rcases h.closed q n hq hqn hadj hn with h1 | h1
    · exact Or.inl h1
    · rcases List.mem_cons.mp h1 with h2 | h2
      · exact Or.inl (key n hn h2)
      · exact Or.inr h2
  · rcases h.seeded with h1 | h1
    · exact Or.inl h1
    · rcases List.mem_cons.mp h1 with h2 | h2
      · exact Or.inl (key pt (Region.start hin) h2)
      · exact Or.inr h2

theorem FillInv.paint {img0 img : Image} {pt p : Point} {new : Color} {rest : List Point}
    (hne : img0.pixel pt ≠ new)
    (h : FillInv img0 pt new img (p :: rest))
    (hc : img.contains p) (hp : img.pixel p = img0.pixel pt) :
    FillInv img0 pt new (img.setPixelColor p new) (pushNeighbours p rest) := by
  have hp0 : img0.pixel p = img0.pixel pt := by
    rcases h.frame p with hf | hf
    · exact hf.symm.trans hp
    · exact absurd (hp.symm.trans hf.1) hne
  have hreg : Region img0 pt p :=
    h.cand p (List.mem_cons_self _ _) ((contains_of_size h.width_eq h.height_eq p).mp hc) hp0
  have hkeep : ∀ n, img.pixel n = new → (img.setPixelColor p new).pixel n = new := by
    intro n hn
    by_cases hnp : n = p
    · rw [hnp]; exact setPixelColor_self img p new hc
    · rw [setPixelColor_other img p n new hnp]; exact hn
  refine ⟨(setPixelColor_width img p new).1.trans h.width_eq,
    (setPixelColor_width img p new).2.trans h.height_eq, ?_, ?_, ?_, ?_⟩
  · intro q
    by_cases hqp : q = p
    · rw [hqp]; exact Or.inr ⟨setPixelColor_self img p new hc, hreg⟩
    · rw [setPixelColor_other img p q new hqp]; exact h.frame q
  · intro q hq hqin hqcol
    rcases (mem_pushNeighbours p q rest).mp hq with hadj | hmem
    · exact Region.step hreg hadj hqin hqcol
    · exact h.cand q (List.mem_cons_of_mem _ hmem) hqin hqcol
  · intro q n hq hqn hadj hn
    by_cases hqp : q = p
    · subst hqp
      exact Or.inr ((mem_pushNeighbours q n rest).mpr (Or.inl hadj))
    · rw [setPixelColor_other img p q new hqp] at hqn
      rcases h.closed q n hq hqn hadj hn with h1 | h1
      · exact Or.inl (hkeep n h1)
      · rcases List.mem_cons.mp h1 with h2 | h2
        · rw [h2]; exact Or.inl (setPixelColor_self img p new hc)
        · exact Or.inr ((mem_pushNeighbours p n rest).mpr (Or.inr h2))
  · rcases h.seeded with h1 | h1
    · exact Or.inl (hkeep pt h1)
    · rcases List.mem_cons.mp h1 with h2 | h2
      · rw [h2]; exact Or.inl (setPixelColor_self img p new hc)
      · exact Or.inr ((mem_pushNeighbours p pt rest).mpr (Or.inr h2))

theorem floodLoop_inv (img0 : Image) (pt : Point) (new : Color) (hin : img0.contains pt)
    (hne : img0.pixelColor pt ≠ new) (img : Image) (stack : List Point) :
    FillInv img0 pt new img stack →
      FillInv img0 pt new (floodLoop (img0.pixelColor pt) new hne img stack).image [] := by
  apply floodLoop.induct (img0.pixelColor pt) new hne
    (fun img stack => FillInv img0 pt new img stack →
      FillInv img0 pt new (floodLoop (img0.pixelColor pt) new hne img stack).image [])
  · intro img h
    rw [floodLoop_nil]
    exact h
  · intro img p rest hc ih h
    rw [floodLoop_outside _ _ _ _ _ _ hc]
    exact ih (h.drop hin (Or.inl hc))
  · intro img p rest hc hp ih h
    rw [floodLoop_other_colour _ _ _ _ _ _ (not_not.mp hc) hp]
    exact ih (h.drop hin (Or.inr hp))
  · intro img p rest hc hp ih h
    rw [floodLoop_write _ _ _ _ _ _ (not_not.mp hc) (not_not.mp hp)]
    exact ih (h.paint hne (not_not.mp hc) (not_not.mp hp))

theorem FillInv.entry (img0 : Image) (pt : Point) (new : Color) (hin : img0.contains pt)
    (hne : img0.pixel pt ≠ new) : FillInv img0 pt new img0 [pt] := by
  refine ⟨rfl, rfl, fun p => Or.inl rfl, ?_, ?_, Or.inr (List.mem_cons_self _ _)⟩
  · intro q hq _ _
    rw [List.mem_singleton.mp hq]
    exact Region.start hin
  · intro q n hq hqn _ _
    exact absurd (hq.inside.2.symm.trans hqn) hne

theorem floodRun_outside (img : Image) (pt : Point) (new : Color) (h : ¬ img.contains pt) :
    floodRun img pt new = ⟨img, [], 0⟩ := by
  unfold floodRun
  rw [if_pos h]

theorem floodRun_same_colour (img : Image) (pt : Point) (new : Color)
    (h : img.pixelColor pt = new) : floodRun img pt new = ⟨img, [], 0⟩ := by
  unfold floodRun
  rw [dif_pos h]
  split_ifs <;> rfl

theorem floodRun_loop (img : Image) (pt : Point) (new : Color) (hin : img.contains pt)
    (hne : img.pixelColor pt ≠ new) :
    floodRun img pt new = floodLoop (img.pixelColor pt) new hne img [pt] := by
  unfold floodRun
  rw [if_neg (not_not.mpr hin), dif_neg hne]

/-- What `floodFill` does to a surface when the seed is in bounds and has another
colour than the new one: the size is kept, the region of the seed gets the new
colour, every other pixel keeps its colour. -/
theorem floodRun_region (img : Image) (pt : Point) (new : Color) (hin : img.contains pt)
    (hne : img.pixelColor pt ≠ new) :
    (floodRun img pt new).image.width = img.width ∧
    (floodRun img pt new).image.height = img.height ∧
    (∀ p, Region img pt p → (floodRun img pt new).image.pixelColor p = new) ∧
    (∀ p, ¬ Region img pt p → (floodRun img pt new).image.pixelColor p = img.pixelColor p) := by
  have hrun := floodRun_loop img pt new hin hne
  have hinv := floodLoop_inv img pt new hin hne img [pt] (FillInv.entry img pt new hin hne)
  rw [← hrun] at hinv
  refine ⟨hinv.width_eq, hinv.height_eq, ?_, ?_⟩
  · intro p hp
    induction hp with
    | start _ =>
      rcases hinv.seeded with h | h
      · exact h
      · exact absurd h (List.not_mem_nil _)
    | step hp hadj hqin hqcol ih =>
      rcases hinv.closed _ _ hp ih hadj (Region.step hp hadj hqin hqcol) with h | h
      · exact h
      · exact absurd h (List.not_mem_nil _)
  · intro p hp
    rcases hinv.frame p with h | h
    · exact h
    · exact absurd h.2 hp

/-- C1: when the seed is in bounds and the new colour differs from the colour of
the seed pixel, `floodFill` gives the new colour to every pixel reachable from the
seed by up/down/left/right steps through in-bounds pixels that had the seed's
colour, leaves every other pixel as it was, and keeps the size of the surface. -/
theorem floodFill_fills_region (s : Canvas) (pt : Point) (newColor : Color)
    (hin : s.image.contains pt) (hne : s.image.pixelColor pt ≠ newColor) :
    (∀ p, Region s.image pt p → (s.floodFill pt newColor).image.pixelColor p = newColor) ∧
    (∀ p, ¬ Region s.image pt p →
      (s.floodFill pt newColor).image.pixelColor p = s.image.pixelColor p) ∧
    (s.floodFill pt newColor).image.width = s.image.width ∧
    (s.floodFill pt newColor).image.height = s.image.height := by
  have h := floodRun_region s.image pt newColor hin hne
  exact ⟨h.2.2.1, h.2.2.2, h.1, h.2.1⟩

theorem floodFill_fills_region_witness :
    sampleStripe.image.contains ⟨0, 0⟩ ∧
    sampleStripe.image.pixelColor ⟨0, 0⟩ ≠ ⟨255, 0, 0⟩ ∧
    (sampleStripe.floodFill ⟨0, 0⟩ ⟨255, 0, 0⟩).image.pixelColor ⟨0, 0⟩ = ⟨255, 0, 0⟩ ∧
    (sampleStripe.floodFill ⟨0, 0⟩ ⟨255, 0, 0⟩).image.pixelColor ⟨1, 0⟩ = Color.black :=
  have h := floodFill_fills_region sampleStripe ⟨0, 0⟩ ⟨255, 0, 0⟩ (by decide) (by decide)
  ⟨by decide, by decide, h.1 _ (Region.start (by decide)),
   (h.2.1 ⟨1, 0⟩ (fun hr => absurd hr.inside.2 (by decide))).trans (by decide)⟩

/-! ## Flood fill: termination and single writes -/

/-- The write log of the loop: every logged pixel was in bounds with the colour
`old` when the loop started, no pixel is logged twice, the iterations are the pops
of the initial stack and of the four pushes of each write, and the final surface is
the initial one with exactly the logged pixels repainted. -/
theorem floodLoop_log (old new : Color) (hne : old ≠ new) (img : Image) (stack : List Point) :
    (∀ w ∈ (floodLoop old new hne img stack).writes, img.contains w ∧ img.pixel w = old) ∧
    (floodLoop old new hne img stack).writes.Nodup ∧
    (floodLoop old new hne img stack).steps
      = stack.length + 4 * (floodLoop old new hne img stack).writes.length ∧
    (∀ q, (floodLoop old new hne img stack).image.pixel q
      = if q ∈ (floodLoop old new hne img stack).writes then new else img.pixel q) := by
  apply floodLoop.induct old new hne
    (fun img stack =>
      (∀ w ∈ (floodLoop old new hne img stack).writes, img.contains w ∧ img.pixel w = old) ∧
      (floodLoop old new hne img stack).writes.Nodup ∧
      (floodLoop old new hne img stack).steps
        = stack.length + 4 * (floodLoop old new hne img stack).writes.length ∧
      (∀ q, (floodLoop old new hne img stack).image.pixel q
        = if q ∈ (floodLoop old new hne img stack).writes then new else img.pixel q))
  · intro img
    rw [floodLoop_nil]
    simp
  · intro img p rest hc ih
    rw [floodLoop_outside _ _ _ _ _ _ hc]
    refine ⟨ih.1, ih.2.1, ?_, ih.2.2.2⟩
    simp only [ih.2.2.1, List.length_cons]
    omega
  · intro img p rest hc hp ih
    rw [floodLoop_other_colour _ _ _ _ _ _ (not_not.mp hc) hp]
    refine ⟨ih.1, ih.2.1, ?_, ih.2.2.2⟩
    simp only [ih.2.2.1, List.length_cons]
    omega
  · intro img p rest hc hp ih
    have hc2 : img.contains p := not_not.mp hc
    have hp2 : img.pixel p = old := not_not.mp hp
    rw [floodLoop_write _ _ _ _ _ _ hc2 hp2]
    have hnot : p ∉ (floodLoop old new hne (img.setPixelColor p new)
        (pushNeighbours p rest)).writes := by
      intro hmem
      have h1 := (ih.1 p hmem).2
      rw [setPixelColor_self img p new hc2] at h1
      exact hne h1.symm
    refine ⟨?_, ?_, ?_, ?_⟩
    · intro w hw
      rcases List.mem_cons.mp hw with h1 | h1
      · rw [h1]; exact ⟨hc2, hp2⟩
      · have hwp : w ≠ p := fun h2 => hnot (h2 ▸ h1)
        have h3 := ih.1 w h1
        rw [setPixelColor_other img p w new hwp] at h3
        exact ⟨(contains_of_size (setPixelColor_width img p new).1
          (setPixelColor_width img p new).2 w).mp h3.1, h3.2⟩
    · exact List.nodup_cons.mpr ⟨hnot, ih.2.1⟩
    · have hpush : (pushNeighbours p rest).length = rest.length + 4 := rfl
      rw [hpush] at ih
      simp only [ih.2.2.1, List.length_cons]
      omega
    · intro q
      simp only [ih.2.2.2 q, List.mem_cons]
      by_cases hq : q ∈ (floodLoop old new hne (img.setPixelColor p new)
          (pushNeighbours p rest)).writes
      · simp [hq]
      · by_cases hqp : q = p
        · simp [hqp, setPixelColor_self img p new hc2]
        · simp [hq, hqp, setPixelColor_other img p q new hqp]

/-- A duplicate-free list of in-bounds points is no longer than the surface is large. -/
theorem length_le_area (img : Image) (ws : List Point) (hnd : ws.Nodup)
    (hin : ∀ w ∈ ws, img.contains w) : ws.length ≤ img.width * img.height := by
  have hinj : Function.Injective (fun w : Point => (w.x, w.y)) := by
    intro a b hab
    cases a
    cases b
    simp only [Prod.mk.injEq] at hab
    simp only [Point.mk.injEq]
    exact hab
  have hnd2 : (ws.map (fun w : Point => (w.x, w.y))).Nodup := hnd.map hinj
  have hsub : (ws.map (fun w : Point => (w.x, w.y))).toFinset
      ⊆ (Finset.Ico (0 : Int) img.width) ×ˢ (Finset.Ico (0 : Int) img.height) := by
    intro q hq
    rw [List.mem_toFinset, List.mem_map] at hq
    obtain ⟨w, hw, rfl⟩ := hq
    have h := hin w hw
    simp only [Finset.mem_product, Finset.mem_Ico]
    exact ⟨⟨h.1, h.2.1⟩, ⟨h.2.2.1, h.2.2.2⟩⟩
  have hcard := Finset.card_le_card hsub
  rw [List.toFinset_card_of_nodup hnd2, List.length_map, Finset.card_product, Int.card_Ico,
    Int.card_Ico] at hcard
  simpa using hcard

/-- C9: for every surface, seed and new colour the fill loop stops: it executes at
most `4 * width * height + 1` iterations. No pixel is written twice, and the
surface it leaves is the original with exactly the written pixels repainted. -/
theorem floodFill_terminates_writes_once (img : Image) (pt : Point) (newColor : Color) :
    (floodRun img pt newColor).steps ≤ 4 * (img.width * img.height) + 1 ∧
    (floodRun img pt newColor).writes.Nodup ∧
    (∀ q, (floodRun img pt newColor).image.pixelColor q
      = if q ∈ (floodRun img pt newColor).writes then newColor else img.pixelColor q) := by
  by_cases h1 : img.contains pt
  · by_cases h2 : img.pixelColor pt = newColor
    · rw [floodRun_same_colour img pt newColor h2]
      simp
    · rw [floodRun_loop img pt newColor h1 h2]
      have h := floodLoop_log (img.pixelColor pt) newColor h2 img [pt]
      have hlen := length_le_area img _ h.2.1 (fun w hw => (h.1 w hw).1)
      refine ⟨?_, h.2.1, h.2.2.2⟩
      rw [h.2.2.1, List.length_singleton]
      omega
  · rw [floodRun_outside img pt newColor h1]
    simp

/-! ## Flood fill on a uniform surface -/

theorem region_walk (img : Image) (pt : Point)
    (hunif : ∀ p, img.contains p → img.pixelColor p = img.pixelColor pt)
    (x y : Int) (h : Region img pt ⟨x, y⟩) (n : Nat) :
    (img.contains ⟨x + n, y⟩ → Region img pt ⟨x + n, y⟩) ∧
    (img.contains ⟨x - n, y⟩ → Region img pt ⟨x - n, y⟩) ∧
    (img.contains ⟨x, y + n⟩ → Region img pt ⟨x, y + n⟩) ∧
    (img.contains ⟨x, y - n⟩ → Region img pt ⟨x, y - n⟩) := by
  have hxy := h.inside.1
  simp only [Image.contains] at hxy
  induction n with
  | zero => simp [h]
  | succ n ih =>
    refine ⟨?_, ?_, ?_, ?_⟩
    · intro hc
      have hc1 := hc
      simp only [Image.contains, Nat.cast_add, Nat.cast_one] at hc1
      have hprev : img.contains ⟨x + n, y⟩ := by
        simp only [Image.contains]; omega
      refine Region.step (ih.1 hprev) (Or.inl ?_) hc (hunif _ hc)
      simp only [Nat.cast_add, Nat.cast_one, Point.mk.injEq, and_true, true_and]
      omega
    · intro hc
      have hc1 := hc
      simp only [Image.contains, Nat.cast_add, Nat.cast_one] at hc1
      have hprev : img.contains ⟨x - n, y⟩ := by
        simp only [Image.contains]; omega
      refine Region.step (ih.2.1 hprev) (Or.inr (Or.inl ?_)) hc (hunif _ hc)
      simp only [Nat.cast_add, Nat.cast_one, Point.mk.injEq, and_true, true_and]
      omega
    · intro hc
      have hc1 := hc
      simp only [Image.contains, Nat.cast_add, Nat.cast_one] at hc1
      have hprev : img.contains ⟨x, y + n⟩ := by
        simp only [Image.contains]; omega
      refine Region.step (ih.2.2.1 hprev) (Or.inr (Or.inr (Or.inl ?_))) hc (hunif _ hc)
      simp only [Nat.cast_add, Nat.cast_one, Point.mk.injEq, and_true, true_and]
      omega
    · intro hc
      have hc1 := hc
      simp only [Image.contains, Nat.cast_add, Nat.cast_one] at hc1
      have hprev : img.contains ⟨x, y - n⟩ := by
        simp only [Image.contains]; omega
      refine Region.step (ih.2.2.2 hprev) (Or.inr (Or.inr (Or.inr ?_))) hc (hunif _ hc)
      simp only [Nat.cast_add, Nat.cast_one, Point.mk.injEq, and_true, true_and]
      omega

/-- On a surface of one colour every in-bounds pixel is in the region of an
in-bounds seed: walk along the seed's row, then along the column. -/
theorem region_uniform (img : Image) (pt : Point)
    (hunif : ∀ p, img.contains p → img.pixelColor p = img.pixelColor pt)
    (hin : img.contains pt) (p : Point) (hp : img.contains p) : Region img pt p := by
  obtain ⟨px, py⟩ := p
  have hin1 := hin
  have hp1 := hp
  simp only [Image.contains] at hin1 hp1
  have hrow : Region img pt ⟨px, pt.y⟩ := by
    have hc : img.contains ⟨px, pt.y⟩ := by
      simp only [Image.contains]; omega
    rcases le_total pt.x px with hle | hle
    · obtain ⟨n, hn⟩ := Int.eq_ofNat_of_zero_le (sub_nonneg.mpr hle)
      have hx : px = pt.x + n := by omega
      rw [hx] at hc ⊢
      exact (region_walk img pt hunif pt.x pt.y (Region.start hin) n).1 hc
    · obtain ⟨n, hn⟩ := Int.eq_ofNat_of_zero_le (sub_nonneg.mpr hle)
      have hx : px = pt.x - n := by omega
      rw [hx] at hc ⊢
      exact (region_walk img pt hunif pt.x pt.y (Region.start hin) n).2.1 hc
  rcases le_total pt.y py with hle | hle
  · obtain ⟨n, hn⟩ := Int.eq_ofNat_of_zero_le (sub_nonneg.mpr hle)
    have hy : py = pt.y + n := by omega
    rw [hy] at hp ⊢
    exact (region_walk img pt hunif px pt.y hrow n).2.2.1 hp
  · obtain ⟨n, hn⟩ := Int.eq_ofNat_of_zero_le (sub_nonneg.mpr hle)
    have hy : py = pt.y - n := by omega
    rw [hy] at hp ⊢
    exact (region_walk img pt hunif px pt.y hrow n).2.2.2 hp

/-- C10: on a surface whose pixels all have one colour, `floodFill` from any
in-bounds seed with any new colour leaves every pixel of the surface with the new
colour (and the size of the surface as it was). -/
theorem floodFill_uniform (s : Canvas) (pt : Point) (newColor c0 : Color)
    (hunif : ∀ p, s.image.contains p → s.image.pixelColor p = c0)
    (hin : s.image.contains pt) :
    (∀ p, s.image.contains p → (s.floodFill pt newColor).image.pixelColor p = newColor) ∧
    (s.floodFill pt newColor).image.width = s.image.width ∧
    (s.floodFill pt newColor).image.height = s.image.height := by
  by_cases hsame : s.image.pixelColor pt = newColor
  · unfold Canvas.floodFill
    rw [floodRun_same_colour s.image pt newColor hsame]
    refine ⟨fun p hp => ?_, rfl, rfl⟩
    show s.image.pixelColor p = newColor
    rw [hunif p hp, ← hunif pt hin]
    exact hsame
  · have h := floodRun_region s.image pt newColor hin hsame
    refine ⟨fun p hp => h.2.2.1 p ?_, h.1, h.2.1⟩
    exact region_uniform s.image pt (fun q hq => (hunif q hq).trans (hunif pt hin).symm) hin p hp

theorem floodFill_uniform_witness :
    (∀ p, sampleWhite.image.contains p → sampleWhite.image.pixelColor p = Color.white) ∧
    sampleWhite.image.contains ⟨0, 0⟩ ∧
    (∀ p, sampleWhite.image.contains p →
      (sampleWhite.floodFill ⟨0, 0⟩ Color.black).image.pixelColor p = Color.black) :=
  ⟨fun _ _ => rfl, by decide,
   (floodFill_uniform sampleWhite ⟨0, 0⟩ Color.black Color.white (fun _ _ => rfl)
     (by decide)).1⟩

/-! ## Operations that change nothing -/

/-- C12: `floodFill` leaves the surface as it is when the seed point is outside
the surface or the seed pixel already has the new colour. -/
theorem floodFill_noop (s : Canvas) (pt : Point) (newColor : Color)
    (h : ¬ s.image.contains pt ∨ s.image.pixelColor pt = newColor) :
    (s.floodFill pt newColor).image = s.image := by
  unfold Canvas.floodFill
  rcases h with h | h
  · rw [floodRun_outside s.image pt newColor h]
  · rw [floodRun_same_colour s.image pt newColor h]

theorem floodFill_noop_witness :
    ¬ sampleStripe.image.contains ⟨3, 0⟩ ∧
    (sampleStripe.floodFill ⟨3, 0⟩ Color.black).image = sampleStripe.image ∧
    sampleStripe.image.pixelColor ⟨1, 0⟩ = Color.black ∧
    (sampleStripe.floodFill ⟨1, 0⟩ Color.black).image = sampleStripe.image :=
  ⟨by decide, floodFill_noop sampleStripe ⟨3, 0⟩ Color.black (Or.inl (by decide)),
   by decide, floodFill_noop sampleStripe ⟨1, 0⟩ Color.black (Or.inr (by decide))⟩

/-- C13: `undo()` on an empty undo stack and `redo()` on an empty redo stack leave
the whole state as it is: current surface, undo stack and redo stack. -/
theorem undo_redo_empty_noop (s : Canvas) :
    (s.undoStack = [] → s.undo = s) ∧ (s.redoStack = [] → s.redo = s) := by
  constructor
  · intro h
    unfold Canvas.undo
    rw [h]
  · intro h
    unfold Canvas.redo
    rw [h]

theorem undo_redo_empty_noop_witness :
    Canvas.init.undoStack = [] ∧ Canvas.init.undo = Canvas.init ∧
    Canvas.init.redoStack = [] ∧ Canvas.init.redo = Canvas.init :=
  ⟨rfl, (undo_redo_empty_noop Canvas.init).1 rfl, rfl, (undo_redo_empty_noop Canvas.init).2 rfl⟩

/-- C14: `loadImage` returns false exactly when decoding fails, and then the state
(current surface, undo stack, redo stack) is as it was; when decoding succeeds it
returns true. -/
theorem loadImage_result (Q : Qt) (s : Canvas) (path : String) :
    ((s.loadImage Q path).1 = false ↔ Q.load path = none) ∧
    (Q.load path = none → (s.loadImage Q path).2 = s) ∧
    (∀ loaded, Q.load path = some loaded → (s.loadImage Q path).1 = true) := by
  unfold Canvas.loadImage
  cases hl : Q.load path with
  | none => simp
  | some loaded => simp

theorem loadImage_result_witness :
    Qt.sample.load "" = none ∧
    (Canvas.init.loadImage Qt.sample "").1 = false ∧
    (Canvas.init.loadImage Qt.sample "").2 = Canvas.init ∧
    (Canvas.init.loadImage Qt.sample "photo.png").1 = true :=
  ⟨rfl, (loadImage_result Qt.sample Canvas.init "").1.mpr rfl,
   (loadImage_result Qt.sample Canvas.init "").2.1 rfl,
   (loadImage_result Qt.sample Canvas.init "photo.png").2.2 _ rfl⟩

/-- C15: after `clear()` every pixel of the current surface is white, and the
surface has the width and height it had before. -/
theorem clear_all_white (s : Canvas) :
    (∀ p, s.clear.image.pixelColor p = Color.white) ∧
    s.clear.image.width = s.image.width ∧ s.clear.image.height = s.image.height :=
  ⟨fun _ => rfl, rfl, rfl⟩

/-- C16: a pointer-move received while no drag is active, or while the primary
button is not held, leaves the whole state as it is. -/
theorem move_idle_noop (Q : Qt) (s : Canvas) (ev : MoveEvent)
    (h : s.drawing = false ∨ ev.leftHeld = false) : s.mouseMoveEvent Q ev = s := by
  unfold Canvas.mouseMoveEvent
  rw [if_pos h]

theorem move_idle_noop_witness :
    Canvas.init.mouseMoveEvent Qt.sample ⟨true, false, ⟨4, 4⟩⟩ = Canvas.init ∧
    (Canvas.init.mousePressEvent Qt.sample MouseButton.LeftButton ⟨1, 1⟩).mouseMoveEvent
        Qt.sample ⟨false, false, ⟨4, 4⟩⟩
      = Canvas.init.mousePressEvent Qt.sample MouseButton.LeftButton ⟨1, 1⟩ :=
  ⟨move_idle_noop Qt.sample Canvas.init ⟨true, false, ⟨4, 4⟩⟩ (Or.inl rfl),
   move_idle_noop Qt.sample _ ⟨false, false, ⟨4, 4⟩⟩ (Or.inr rfl)⟩

/-! ## The history timeline -/

/-- C17: `undo()` and `redo()` each leave the history timeline (undo stack from
bottom to top, current surface, redo stack from top to bottom) as it is, and with
it the total number of stored snapshots. -/
theorem undo_redo_timeline (s : Canvas) :
    s.undo.timeline = s.timeline ∧ s.redo.timeline = s.timeline ∧
    s.undo.undoStack.length + s.undo.redoStack.length
      = s.undoStack.length + s.redoStack.length ∧
    s.redo.undoStack.length + s.redo.redoStack.length
      = s.undoStack.length + s.redoStack.length := by
  refine ⟨?_, ?_, ?_, ?_⟩
  · unfold Canvas.undo
    cases hu : s.undoStack with
    | nil => simp [Canvas.timeline, hu]
    | cons top rest => simp [Canvas.timeline, hu]
  · unfold Canvas.redo
    cases hr : s.redoStack with
    | nil => simp [Canvas.timeline, hr]
    | cons top rest => simp [Canvas.timeline, hr]
  · unfold Canvas.undo
    cases hu : s.undoStack with
    | nil => simp [hu]
    | cons top rest => simp; omega
  · unfold Canvas.redo
    cases hr : s.redoStack with
    | nil => simp [hr]
    | cons top rest => simp; omega

/-! ## Surface dimensions -/

theorem Image.sameSize.rfl_ (a : Image) : a.sameSize a := ⟨rfl, rfl⟩

theorem Image.sameSize.trans_ {a b c : Image} (h1 : a.sameSize b) (h2 : b.sameSize c) :
    a.sameSize c := ⟨h1.1.trans h2.1, h1.2.trans h2.2⟩

theorem floodRun_size (img : Image) (pt : Point) (new : Color) :
    (floodRun img pt new).image.sameSize img := by
  by_cases h1 : img.contains pt
  · by_cases h2 : img.pixelColor pt = new
    · rw [floodRun_same_colour img pt new h2]
      exact ⟨rfl, rfl⟩
    · exact ⟨(floodRun_region img pt new h1 h2).1, (floodRun_region img pt new h1 h2).2.1⟩
  · rw [floodRun_outside img pt new h1]
    exact ⟨rfl, rfl⟩

theorem drawShape_size (Q : Qt) (hQ : Q.keepsSize) (mode : ShapeMode) (base : Image)
    (color : Color) (penWidth : Int) (brush : Option Color) (p q : Point) :
    (drawShape Q mode base color penWidth brush p q).sameSize base := by
  cases mode
  · exact ⟨rfl, rfl⟩
  · exact hQ.1 _ _ _ _ _
  · exact hQ.2.1 _ _ _ _ _ _
  · exact hQ.2.2.1 _ _ _ _ _ _
  · exact ⟨rfl, rfl⟩
  · exact ⟨rfl, rfl⟩

theorem sample_keepsSize : Qt.sample.keepsSize := by
  have h : ∀ (img : Image) (p q : Point) (c : Color),
      ((img.setPixelColor p c).setPixelColor q c).sameSize img := by
    intro img p q c
    have h1 := setPixelColor_width (img.setPixelColor p c) q c
    have h2 := setPixelColor_width img p c
    exact ⟨h1.1.trans h2.1, h1.2.trans h2.2⟩
  refine ⟨fun img c _ p q => h img p q c, fun img c _ _ p q => h img p q c,
    fun img c _ _ p q => h img p q c, fun img c _ p _ => ?_⟩
  exact ⟨(setPixelColor_width img p c).1, (setPixelColor_width img p c).2⟩

theorem fitting_keepsSize : Qt.fitting.keepsSize := sample_keepsSize

theorem move_idle {Q : Qt} (s : Canvas) {ev : MoveEvent}
    (h : s.drawing = false ∨ ev.leftHeld = false) : s.mouseMoveEvent Q ev = s := by
  unfold Canvas.mouseMoveEvent
  rw [if_pos h]

theorem press_size (Q : Qt) (hQ : Q.keepsSize) (s : Canvas) (b : MouseButton) (pos : Point) :
    (s.mousePressEvent Q b pos).image.sameSize s.image := by
  simp only [Canvas.mousePressEvent]
  split_ifs
  · exact ⟨rfl, rfl⟩
  · exact floodRun_size s.image pos s.penColor
  · exact hQ.2.2.2 _ _ _ _ _
  · exact ⟨rfl, rfl⟩

theorem move_size (Q : Qt) (hQ : Q.keepsSize) (s : Canvas) (ev : MoveEvent)
    (h : s.drawing = true → s.tempImage.sameSize s.image) :
    (s.mouseMoveEvent Q ev).image.sameSize s.image := by
  by_cases h1 : s.drawing = false ∨ ev.leftHeld = false
  · rw [move_idle s h1]
    exact ⟨rfl, rfl⟩
  · have hd : s.drawing = true := by
      cases hdr : s.drawing
      · exact absurd (Or.inl hdr) h1
      · rfl
    simp only [Canvas.mouseMoveEvent]
    split_ifs
    all_goals first
      | exact ⟨rfl, rfl⟩
      | exact hQ.1 _ _ _ _ _
      | exact (drawShape_size Q hQ _ _ _ _ _ _ _).trans_ (h hd)

theorem undo_size (s : Canvas) (h : ∀ snap ∈ s.undoStack, snap.sameSize s.image) :
    s.undo.image.sameSize s.image := by
  unfold Canvas.undo
  cases hu : s.undoStack with
  | nil => exact ⟨rfl, rfl⟩
  | cons top rest => exact h top (hu ▸ List.mem_cons_self _ _)

theorem redo_size (s : Canvas) (h : ∀ snap ∈ s.redoStack, snap.sameSize s.image) :
    s.redo.image.sameSize s.image := by
  unfold Canvas.redo
  cases hr : s.redoStack with
  | nil => exact ⟨rfl, rfl⟩
  | cons top rest => exact h top (hr ▸ List.mem_cons_self _ _)

/-- A state whose surface has the size of the old surface, whose snapshots are old
snapshots or have that size, and whose drag baseline (if dragging) has that size,
has agreeing sizes when the old state had. -/
theorem sizesAgree_next {s t : Canvas} (h : s.sizesAgree) (hi : t.image.sameSize s.image)
    (hu : ∀ x ∈ t.undoStack, x ∈ s.undoStack ∨ x.sameSize s.image)
    (hr : ∀ x ∈ t.redoStack, x ∈ s.redoStack ∨ x.sameSize s.image)
    (ht : t.drawing = true → t.tempImage.sameSize s.image) : t.sizesAgree := by
  have hsymm : s.image.sameSize t.image := ⟨hi.1.symm, hi.2.symm⟩
  refine ⟨?_, ?_, ?_⟩
  · intro x hx
    rcases hu x hx with h1 | h1
    · exact (h.1 x h1).trans_ hsymm
    · exact h1.trans_ hsymm
  · intro x hx
    rcases hr x hx with h1 | h1
    · exact (h.2.1 x h1).trans_ hsymm
    · exact h1.trans_ hsymm
  · intro hd
    exact (ht hd).trans_ hsymm

theorem undo_of_nil (s : Canvas) (hu : s.undoStack = []) : s.undo = s := by
  unfold Canvas.undo
  rw [hu]

theorem undo_of_cons (s : Canvas) (top : Image) (rest : List Image)
    (hu : s.undoStack = top :: rest) :
    s.undo = { s with redoStack := s.image :: s.redoStack, image := top, undoStack := rest } := by
  unfold Canvas.undo
  rw [hu]

theorem redo_of_nil (s : Canvas) (hr : s.redoStack = []) : s.redo = s := by
  unfold Canvas.redo
  rw [hr]

theorem redo_of_cons (s : Canvas) (top : Image) (rest : List Image)
    (hr : s.redoStack = top :: rest) :
    s.redo = { s with undoStack := s.image :: s.undoStack, image := top, redoStack := rest } := by
  unfold Canvas.redo
  rw [hr]

theorem press_stacks (Q : Qt) (s : Canvas) (b : MouseButton) (pos : Point) :
    (∀ x ∈ (s.mousePressEvent Q b pos).undoStack, x ∈ s.undoStack ∨ x = s.image) ∧
    (∀ x ∈ (s.mousePressEvent Q b pos).redoStack, x ∈ s.redoStack) := by
  by_cases hb : b = MouseButton.LeftButton
  · subst hb
    rw [(press_history Q s pos).1, (press_history Q s pos).2]
    refine ⟨fun x hx => ?_, fun x hx => absurd hx (List.not_mem_nil _)⟩
    rcases List.mem_cons.mp hx with h1 | h1
    · exact Or.inr h1
    · exact Or.inl h1
  · have hs : s.mousePressEvent Q b pos = s := by
      simp only [Canvas.mousePressEvent]
      rw [if_pos hb]
    rw [hs]
    exact ⟨fun x hx => Or.inl hx, fun x hx => hx⟩

theorem press_baseline (Q : Qt) (s : Canvas) (b : MouseButton) (pos : Point)
    (h : s.drawing = true → s.tempImage.sameSize s.image) :
    (s.mousePressEvent Q b pos).drawing = true →
      (s.mousePressEvent Q b pos).tempImage.sameSize s.image := by
  simp only [Canvas.mousePressEvent]
  split_ifs
  · exact h
  · exact h
  · exact h
  · intro _
    exact ⟨rfl, rfl⟩

theorem move_tempImage (Q : Qt) (s : Canvas) (ev : MoveEvent) :
    (s.mouseMoveEvent Q ev).tempImage = s.tempImage := by
  unfold Canvas.mouseMoveEvent
  split_ifs <;> rfl

theorem setter_fields (s : Canvas) :
    (∀ b, (s.setEraser b).image = s.image ∧ (s.setEraser b).undoStack = s.undoStack ∧
      (s.setEraser b).redoStack = s.redoStack ∧ (s.setEraser b).drawing = s.drawing ∧
      (s.setEraser b).tempImage = s.tempImage) ∧
    (∀ m, (s.setShapeMode m).image = s.image ∧ (s.setShapeMode m).undoStack = s.undoStack ∧
      (s.setShapeMode m).redoStack = s.redoStack ∧ (s.setShapeMode m).drawing = s.drawing ∧
      (s.setShapeMode m).tempImage = s.tempImage) := by
  constructor
  · intro b
    simp only [Canvas.setEraser]
    split_ifs <;> exact ⟨rfl, rfl, rfl, rfl, rfl⟩
  · intro m
    simp only [Canvas.setShapeMode]
    split_ifs <;> exact ⟨rfl, rfl, rfl, rfl, rfl⟩

theorem sizesAgree_same {s t : Canvas} (h : s.sizesAgree)
    (hf : t.image = s.image ∧ t.undoStack = s.undoStack ∧ t.redoStack = s.redoStack ∧
      t.drawing = s.drawing ∧ t.tempImage = s.tempImage) :
    t.sizesAgree ∧ t.image.sameSize s.image := by
  obtain ⟨h1, h2, h3, h4, h5⟩ := hf
  unfold Canvas.sizesAgree
  rw [h1, h2, h3, h4, h5]
  exact ⟨h, ⟨rfl, rfl⟩⟩

theorem step_sizesAgree (Q : Qt) (hQ : Q.keepsSize) (s : Canvas) (op : Op)
    (hop : op.isLoad = false) (h : s.sizesAgree) :
    (s.step Q op).sizesAgree ∧ (s.step Q op).image.sameSize s.image := by
  have hpush : ∀ x ∈ s.image :: s.undoStack, x ∈ s.undoStack ∨ x.sameSize s.image := by
    intro x hx
    rcases List.mem_cons.mp hx with h1 | h1
    · rw [h1]; exact Or.inr ⟨rfl, rfl⟩
    · exact Or.inl h1
  cases op with
  | clear =>
    exact ⟨sizesAgree_next h ⟨rfl, rfl⟩ hpush
      (fun x hx => absurd hx (List.not_mem_nil _)) h.2.2, ⟨rfl, rfl⟩⟩
  | setColor c => exact sizesAgree_same h ⟨rfl, rfl, rfl, rfl, rfl⟩
  | setBrushSize n => exact sizesAgree_same h ⟨rfl, rfl, rfl, rfl, rfl⟩
  | setEraser b => exact sizesAgree_same h ((setter_fields s).1 b)
  | setShapeMode m => exact sizesAgree_same h ((setter_fields s).2 m)
  | setFillShape b => exact sizesAgree_same h ⟨rfl, rfl, rfl, rfl, rfl⟩
  | undo =>
    show s.undo.sizesAgree ∧ s.undo.image.sameSize s.image
    cases hu : s.undoStack with
    | nil =>
      rw [undo_of_nil s hu]
      exact ⟨h, ⟨rfl, rfl⟩⟩
    | cons top rest =>
      have htop : top.sameSize s.image := h.1 top (hu ▸ List.mem_cons_self _ _)
      rw [undo_of_cons s top rest hu]
      refine ⟨sizesAgree_next h htop ?_ ?_ h.2.2, htop⟩
      · intro x hx
        exact Or.inl (hu ▸ List.mem_cons_of_mem _ hx)
      · intro x hx
        rcases List.mem_cons.mp hx with h1 | h1
        · rw [h1]; exact Or.inr ⟨rfl, rfl⟩
        · exact Or.inl h1
  | redo =>
    show s.redo.sizesAgree ∧ s.redo.image.sameSize s.image
    cases hr : s.redoStack with
    | nil =>
      rw [redo_of_nil s hr]
      exact ⟨h, ⟨rfl, rfl⟩⟩
    | cons top rest =>
      have htop : top.sameSize s.image := h.2.1 top (hr ▸ List.mem_cons_self _ _)
      rw [redo_of_cons s top rest hr]
      refine ⟨sizesAgree_next h htop ?_ ?_ h.2.2, htop⟩
      · exact hpush
      · intro x hx
        exact Or.inl (hr ▸ List.mem_cons_of_mem _ hx)
  | setText t => exact sizesAgree_same h ⟨rfl, rfl, rfl, rfl, rfl⟩
  | floodFill pt c =>
    exact ⟨sizesAgree_next h (floodRun_size s.image pt c) (fun x hx => Or.inl hx)
      (fun x hx => Or.inl hx) h.2.2, floodRun_size s.image pt c⟩
  | loadImage path => exact absurd hop (by simp [Op.isLoad])
  | getImage => exact ⟨h, ⟨rfl, rfl⟩⟩
  | press b pos =>
    refine ⟨sizesAgree_next h (press_size Q hQ s b pos) ?_ ?_
      (press_baseline Q s b pos h.2.2), press_size Q hQ s b pos⟩
    · intro x hx
      rcases (press_stacks Q s b pos).1 x hx with h1 | h1
      · exact Or.inl h1
      · rw [h1]; exact Or.inr ⟨rfl, rfl⟩
    · intro x hx
      exact Or.inl ((press_stacks Q s b pos).2 x hx)
  | move ev =>
    refine ⟨sizesAgree_next h (move_size Q hQ s ev h.2.2) ?_ ?_ ?_, move_size Q hQ s ev h.2.2⟩
    · intro x hx
      exact Or.inl ((mouseMoveEvent_history Q s ev).1 ▸ hx)
    · intro x hx
      exact Or.inl ((mouseMoveEvent_history Q s ev).2 ▸ hx)
    · intro hd
      show (s.mouseMoveEvent Q ev).tempImage.sameSize s.image
      rw [move_tempImage Q s ev]
      exact h.2.2 ((move_keeps_drag Q s ev).symm.trans hd)
  | release =>
    exact ⟨sizesAgree_next h ⟨rfl, rfl⟩ (fun x hx => Or.inl hx) (fun x hx => Or.inl hx)
      (fun hd => absurd hd (by simp [Canvas.step, Canvas.mouseReleaseEvent])), ⟨rfl, rfl⟩⟩

theorem run_sizesAgree (Q : Qt) (hQ : Q.keepsSize) (ops : List Op) (s : Canvas)
    (hops : ∀ op ∈ ops, op.isLoad = false) (h : s.sizesAgree) :
    (s.run Q ops).sizesAgree ∧ (s.run Q ops).image.sameSize s.image := by
  induction ops generalizing s with
  | nil => exact ⟨h, ⟨rfl, rfl⟩⟩
  | cons op ops ih =>
    have h1 := step_sizesAgree Q hQ s op (hops op (List.mem_cons_self _ _)) h
    have h2 := ih (s.step Q op) (fun o ho => hops o (List.mem_cons_of_mem _ ho)) h1.1
    exact ⟨h2.1, h2.2.trans_ h1.2⟩

theorem init_sizesAgree : Canvas.init.sizesAgree :=
  ⟨fun x hx => absurd hx (List.not_mem_nil _), fun x hx => absurd hx (List.not_mem_nil _),
   fun hd => absurd hd (by decide)⟩

/-- C11 (as stated, refuted): after `loadImage` has put a 600 x 600 surface in
place of the 900 x 600 one, `undo()` brings back the 900 x 600 snapshot, so it
changes the width of the current surface in a reachable state. -/
theorem undo_after_load_resizes :
    Qt.fitting.keepsSize ∧ Reachable Qt.fitting sampleLoaded ∧
    sampleLoaded.image.width = 600 ∧ sampleLoaded.image.height = 600 ∧
    sampleLoaded.undo.image.width = 900 ∧ sampleLoaded.undo.image.height = 600 :=
  ⟨fitting_keepsSize, ⟨[Op.loadImage "photo.png"], rfl⟩, by decide, by decide, by decide,
   by decide⟩

/-- C11 (amended): when the painter calls keep the size of the surface they paint
on, `clear`, `floodFill`, pointer press and pointer release leave the width and
height of the current surface as they are in every state; `undo`, `redo` and
pointer-move do so in every state whose history snapshots (and drag baseline,
while dragging) have the size of the current surface; and every state reached
from the constructor's state without `loadImage` is such a state, with a surface
of the constructor's size. -/
theorem size_kept_while_sizes_agree (Q : Qt) (hQ : Q.keepsSize) :
    (∀ (s : Canvas) (pt : Point) (c : Color) (b : MouseButton) (pos : Point),
      s.clear.image.sameSize s.image ∧ (s.floodFill pt c).image.sameSize s.image ∧
      (s.mousePressEvent Q b pos).image.sameSize s.image ∧
      s.mouseReleaseEvent.image.sameSize s.image) ∧
    (∀ (s : Canvas) (ev : MoveEvent), s.sizesAgree →
      s.undo.image.sameSize s.image ∧ s.redo.image.sameSize s.image ∧
      (s.mouseMoveEvent Q ev).image.sameSize s.image) ∧
    (∀ ops : List Op, (∀ op ∈ ops, op.isLoad = false) →
      (Canvas.init.run Q ops).sizesAgree ∧
      (Canvas.init.run Q ops).image.sameSize Canvas.init.image) := by
  refine ⟨?_, ?_, ?_⟩
  · intro s pt c b pos
    exact ⟨⟨rfl, rfl⟩, floodRun_size s.image pt c, press_size Q hQ s b pos, ⟨rfl, rfl⟩⟩
  · intro s ev h
    exact ⟨undo_size s h.1, redo_size s h.2.1, move_size Q hQ s ev h.2.2⟩
  · intro ops hops
    exact run_sizesAgree Q hQ ops Canvas.init hops init_sizesAgree

theorem size_kept_while_sizes_agree_witness :
    Qt.sample.keepsSize ∧
    (∀ op ∈ sampleDrawOps, op.isLoad = false) ∧
    (Canvas.init.run Qt.sample sampleDrawOps).image.sameSize Canvas.init.image ∧
    (Canvas.init.run Qt.sample sampleDrawOps).undo.image.sameSize
      (Canvas.init.run Qt.sample sampleDrawOps).image :=
  have h := size_kept_while_sizes_agree Qt.sample sample_keepsSize
  have hops : ∀ op ∈ sampleDrawOps, op.isLoad = false := by
    simp [sampleDrawOps, Op.isLoad]
  ⟨sample_keepsSize, hops, (h.2.2 sampleDrawOps hops).2,
   (h.2.1 _ ⟨true, false, ⟨0, 0⟩⟩ (h.2.2 sampleDrawOps hops).1).1⟩

end PaintApp
